import Mathlib

/-!
# A verification development for the look-aside cache (`cache_store.cc`, `fifo_evictor.cc`)

The cache engine is embedded as explicit state passing over the record `Impl`
(the pimpl of `class Cache`).  The table `std::unordered_map<key_type, val_type>`
is an association list; a `val_type` is the pair of a buffer pointer and an
explicit size, with `none` standing for `nullptr`.
-/

namespace CacheStore

/-- The key type of `evictor.hh`: `std::string`. -/
abbrev key_type := String

/-- A byte of a value buffer (`Cache::byte_type`); the cache never inspects bytes. -/
abbrev byte_type := Nat

/-- Modelled from the spec: the struct `Cache::val_type` and the type `Cache::size_type`
of its field `size_` are declared in `cache.hh`, which is not among the sources.  The
fields are the two that `cache_store.cc` uses: `data_` (a buffer pointer, `none` is
`nullptr`) and `size_`.  The spec describes sizes and `space_used` as a "non-negative
integer byte count", so every `size_type` quantity is a natural number. -/
structure val_type where
  data_ : Option (List byte_type)
  size_ : Nat
deriving DecidableEq, Repr

/-- The call `memcpy(dst, src, n)` into a fresh buffer: the first `n` bytes behind `src`. -/
def memcpy (src : Option (List byte_type)) (n : Nat) : List byte_type :=
  (src.getD []).take n

/-! ## `fifo_evictor.cc` -/

/-- The class `Fifo_Evictor`: its only member is the queue `keys`, front first. -/
structure Fifo_Evictor where
  keys : List key_type
deriving DecidableEq, Repr

namespace Fifo_Evictor

/-- The member `Fifo_Evictor::touch_key`: `keys.push(key)`. -/
def touch_key (e : Fifo_Evictor) (key : key_type) : Fifo_Evictor :=
  ⟨e.keys ++ [key]⟩

/-- The member `Fifo_Evictor::evict`: returns `""` when the queue is empty, otherwise pops
the front of the queue and returns it. -/
def evict (e : Fifo_Evictor) : key_type × Fifo_Evictor :=
  match e.keys with
  | [] => ("", e)
  | key :: rest => (key, ⟨rest⟩)

end Fifo_Evictor

/-! ## The table -/

/-- The table `std::unordered_map<key_type, val_type, hash_func>` as an association list. -/
abbrev Table := List (key_type × val_type)

namespace unordered_map

/-- The call `table.find(key)` (also `table.at(key)`): `none` is `table.end()`
(for `at`: the exception `std::out_of_range`). -/
def find (table : Table) (key : key_type) : Option val_type :=
  match table with
  | [] => none
  | entry :: rest => if entry.1 = key then some entry.2 else find rest key

/-- The call `table.erase(key)`: the number of entries removed and the remaining table. -/
def erase (table : Table) (key : key_type) : Nat × Table :=
  ((table.filter (fun entry => entry.1 = key)).length,
    table.filter (fun entry => ¬ entry.1 = key))

/-- The call `table.insert(std::make_pair(key, val))`: no effect when `key` is already
present. -/
def insert (table : Table) (key : key_type) (val : val_type) : Table :=
  match find table key with
  | some _ => table
  | none => (key, val) :: table

end unordered_map

/-! ## `cache_store.cc` -/

/-- The class `Cache::Impl`.  The field `evictor` is `none` for `nullptr`; the only policy
that ships is `Fifo_Evictor`.  The load factor and the hasher do not influence the
observable behaviour and are left out. -/
structure Impl where
  maxmem : Nat
  evictor : Option Fifo_Evictor
  successful_gets : Nat
  gets : Nat
  table : Table
deriving DecidableEq, Repr

namespace Cache

/-- The constructor `Cache::Cache`: an empty table and zeroed counters. -/
def new (maxmem : Nat) (evictor : Option Fifo_Evictor) : Impl :=
  { maxmem := maxmem, evictor := evictor, successful_gets := 0, gets := 0, table := [] }

/-- The member `Cache::space_used`: the sum of `size_` over the table. -/
def space_used (c : Impl) : Nat :=
  c.table.foldl (fun mem entry => mem + entry.2.size_) 0

/-- The member `Cache::del`. -/
def del (c : Impl) (key : key_type) : Bool × Impl :=
  match unordered_map.find c.table key with
  | none => (false, c)
  | some _ =>
    let r := unordered_map.erase c.table key
    (decide (r.1 ≠ 0), { c with table := r.2 })

/-- The member `Cache::get`.  The absent result is `{nullptr, 0}`; a hit returns a freshly
allocated copy of the stored buffer, which is never `nullptr`. -/
def get (c : Impl) (key : key_type) : val_type × Impl :=
  let c1 := { c with gets := c.gets + 1 }
  let return_val : val_type := ⟨none, 0⟩
  match unordered_map.find c1.table key with
  | none => (return_val, c1)
  | some found_val =>
    let buff := memcpy found_val.data_ found_val.size_
    (⟨some buff, found_val.size_⟩, { c1 with successful_gets := c1.successful_gets + 1 })

/-- The loop of `Cache::reset`: erase the entry at `begin()` until the table is empty. -/
def reset_loop : Table → Table
  | [] => []
  | _ :: rest => reset_loop rest

/-- The member `Cache::reset`. -/
def reset (c : Impl) : Bool × Impl :=
  let table := reset_loop c.table
  (table.isEmpty, { c with table := table, successful_gets := 0, gets := 0 })

/-- The inner loop of `Cache::set` (lines 97-101), entered with the candidate `to_evict`.
The result is `none` when the fuel runs out, `some (none, _)` for `return false`, and
`some (some k, _)` when the loop ends with the candidate `k` present in the table. -/
def set_inner : Nat → Table → Fifo_Evictor → key_type → Option (Option key_type × Fifo_Evictor)
  | 0, _, _, _ => none
  | fuel + 1, table, ev, to_evict =>
    match unordered_map.find table to_evict with
    | none =>
      let r := ev.evict
      if r.1 = "" then some (none, r.2) else set_inner fuel table r.2 r.1
    | some _ => some (some to_evict, ev)

/-- The outer loop of `Cache::set` (lines 91-112) for a cache with an evictor.
The result is `none` when the fuel runs out; otherwise the flag is `false` for
`return false` and `true` when the loop ends with `memused <= maxmem`. -/
def set_outer : Nat → Impl → Fifo_Evictor → Nat → Option (Bool × Fifo_Evictor × Impl)
  | 0, _, _, _ => none
  | fuel + 1, c, ev, memused =>
    if memused > c.maxmem then
      let r := ev.evict
      if r.1 = "" then some (false, r.2, c)
      else
        match set_inner fuel c.table r.2 r.1 with
        | none => none
        | some (none, ev2) => some (false, ev2, c)
        | some (some to_evict, ev2) =>
          match unordered_map.find c.table to_evict with
          | none => some (false, ev2, c)
          | some v => set_outer fuel (del c to_evict).2 ev2 (memused - v.size_)
    else some (true, ev, c)

/-- The eviction phase of `Cache::set` (lines 84-112): touch the key, then run the loops.
With no evictor the loop body returns `false` at once. -/
def set_evict (c : Impl) (key : key_type) (val : val_type) : Option (Bool × Impl) :=
  match c.evictor with
  | none =>
    if space_used c + val.size_ > c.maxmem then some (false, c) else some (true, c)
  | some ev0 =>
    let ev := ev0.touch_key key
    match set_outer (ev.keys.length + 1) c ev (space_used c + val.size_) with
    | none => none
    | some (ok, ev2, c2) => some (ok, { c2 with evictor := some ev2 })

/-- The member `Cache::set`.  The result is `none` only if the loops ran out of fuel
(`set_total` shows that this never happens). -/
def set (c : Impl) (key : key_type) (val : val_type) : Option (Bool × Impl) :=
  match set_evict c key val with
  | none => none
  | some (false, c2) => some (false, c2)
  | some (true, c2) =>
    let c3 :=
      match unordered_map.find c2.table key with
      | some _ => (del c2 key).2
      | none => c2
    let data_cpy := memcpy val.data_ val.size_
    let val_cpy : val_type := ⟨some data_cpy, val.size_⟩
    some (true, { c3 with table := unordered_map.insert c3.table key val_cpy })

end Cache

/-- A value of `n` bytes, all equal to `b`, in a buffer of exactly `n` bytes. -/
def bytes (n : Nat) (b : byte_type) : val_type := ⟨some (List.replicate n b), n⟩

/-- The value stored by `Cache::set` for the argument `val`: a fresh buffer holding the
first `size_` bytes of the caller's buffer, with the same `size_`. -/
def stored (val : val_type) : val_type := ⟨some (memcpy val.data_ val.size_), val.size_⟩

/-- The sum of the sizes of the values of a table. -/
def tsize (table : Table) : Nat := (table.map (fun entry => entry.2.size_)).sum

/-- The keys of a table. -/
def tkeys (table : Table) : List key_type := table.map Prod.fst

/-- One call of the public interface of the cache. -/
inductive Op where
  | set (key : key_type) (val : val_type)
  | get (key : key_type)
  | del (key : key_type)
  | reset
deriving DecidableEq, Repr

namespace Cache

/-- The state after one call; `none` only if `set` ran out of fuel. -/
def step (c : Impl) : Op → Option Impl
  | Op.set key val => (set c key val).map Prod.snd
  | Op.get key => some (get c key).2
  | Op.del key => some (del c key).2
  | Op.reset => some (reset c).2

/-- The state after a sequence of calls, first call first. -/
def run (c : Impl) : List Op → Option Impl
  | [] => some c
  | op :: ops =>
    match step c op with
    | none => none
    | some c1 => run c1 ops

end Cache

/-- The state invariant of a cache with a FIFO policy on which only non-empty keys were
set: the policy is present, its queue does not hold `""`, the keys of the table are
distinct, and every key of the table occurs in the queue. -/
def FifoInv (c : Impl) : Prop :=
  ∃ q : List key_type, c.evictor = some ⟨q⟩ ∧ "" ∉ q ∧ (tkeys c.table).Nodup ∧
    ∀ x ∈ tkeys c.table, x ∈ q

/-- The call does not pass the empty string to `set`. -/
def Op.set_key_nonempty : Op → Prop
  | Op.set key _ => key ≠ ""
  | _ => True

/-- The table entries that `Cache::set` stores for the caller's entries `es`. -/
def stored_entries (es : Table) : Table := es.map (fun e => (e.1, stored e.2))

/-- The calls `set(k1, v1)`, ..., `set(kn, vn)` for the entries `es`, in that order. -/
def set_ops (es : Table) : List Op := es.map (fun e => Op.set e.1 e.2)

/-- The entries of the FIFO scenario of the spec: eight 32-byte values under the keys
`"0"` to `"7"`. -/
def fifo_scenario : Table :=
  [("0", bytes 32 0), ("1", bytes 32 1), ("2", bytes 32 2), ("3", bytes 32 3),
   ("4", bytes 32 4), ("5", bytes 32 5), ("6", bytes 32 6), ("7", bytes 32 7)]

/-! ## `double` arithmetic of `Cache::hit_rate`

A `double` is an IEEE 754 binary64 number and is represented by its value, a rational
number; results are rounded to the nearest number with a 53-bit significand, ties to
even.  The counters of the cache are below `2 ^ 64`, so every quotient of two counters lies
between `2 ^ (-64)` and `2 ^ 64`, far inside the range of normal numbers; the exponent is
therefore not bounded in the embedding. -/

/-- The quotient `n / d` (for `d > 0`) rounded to the nearest natural number, ties to the
even one. -/
def round_half_even (n d : Nat) : Nat :=
  let q := n / d
  let r := n % d
  if 2 * r < d then q
  else if d < 2 * r then q + 1
  else if q % 2 = 0 then q else q + 1

/-- The conversion `static_cast<double>(n)` of a counter: the value of the resulting
`double`, which is a natural number.  Counters below `2 ^ 53` are exact; a larger one is
rounded to 53 significant bits. -/
def to_double (n : Nat) : Nat :=
  if n < 2 ^ 53 then n
  else
    let e := Nat.log2 n - 52
    round_half_even n (2 ^ e) * 2 ^ e

/-- The division `a / b` of two `double`s with the natural values `a` and `b > 0`: the
quotient rounded to 53 significant bits.  With `t - la` the number of bits by which `a` is
scaled up and `la - t` the number by which `b` is scaled up, the scaled quotient lies in
`[2 ^ 52, 2 ^ 53)` and is rounded to a natural number. -/
def double_div (a b : Nat) : ℚ :=
  if a = 0 then 0
  else
    let la := Nat.log2 a
    let lb := Nat.log2 b
    let t := 52 + lb + (if b * 2 ^ la ≤ a * 2 ^ lb then 0 else 1)
    (round_half_even (a * 2 ^ (t - la)) (b * 2 ^ (la - t)) : ℚ) * 2 ^ (la - t) / 2 ^ (t - la)

/-- The member `Cache::hit_rate`: 0 when `gets` is 0, otherwise both counters are
converted to `double` and divided in `double` arithmetic.  The result is the value of the
returned `double`. -/
def Cache.hit_rate (c : Impl) : ℚ :=
  if c.gets = 0 then 0
  else double_div (to_double c.successful_gets) (to_double c.gets)

/-- The number of `get` calls in a sequence of calls. -/
def count_gets : List Op → Nat
  | [] => 0
  | Op.get _ :: ops => count_gets ops + 1
  | _ :: ops => count_gets ops

/-- The number of `get` calls that return a present value (a non-null buffer) when the
sequence of calls is run from the state `c`. -/
def count_hits (c : Impl) : List Op → Nat
  | [] => 0
  | op :: ops =>
    (match op with
      | Op.get key => if (Cache.get c key).1.data_.isSome then 1 else 0
      | _ => 0) +
    (match Cache.step c op with
      | some c1 => count_hits c1 ops
      | none => 0)

/-- The calls `touch_key(k1)`, ..., `touch_key(kn)` on a policy, in that order. -/
def Fifo_Evictor.touch_keys (e : Fifo_Evictor) : List key_type → Fifo_Evictor
  | [] => e
  | key :: keys => touch_keys (e.touch_key key) keys

/-- The results of `n` successive calls of `evict()` and the policy afterwards. -/
def Fifo_Evictor.evict_times : Nat → Fifo_Evictor → List key_type × Fifo_Evictor
  | 0, e => ([], e)
  | n + 1, e =>
    let r := e.evict
    let rs := evict_times n r.2
    (r.1 :: rs.1, rs.2)

/-! ## `cache_server.cc`: parsing the request target -/

/-- The call `msg.find_first_of(ch)`; `none` is `std::string::npos`. -/
def find_first_of (msg : List Char) (ch : Char) : Option Nat :=
  match msg with
  | [] => none
  | c :: rest =>
    if c = ch then some 0
    else
      match find_first_of rest ch with
      | some i => some (i + 1)
      | none => none

/-- The call `msg.find_last_of(ch)`; `none` is `std::string::npos`. -/
def find_last_of (msg : List Char) (ch : Char) : Option Nat :=
  match msg with
  | [] => none
  | c :: rest =>
    match find_last_of rest ch with
    | some i => some (i + 1)
    | none => if c = ch then some 0 else none

/-- The expression `pos + 1` of type `size_t`: `npos + 1` wraps around to 0, and a
position inside a string cannot wrap. -/
def pos_succ : Option Nat → Nat
  | some i => i + 1
  | none => 0

/-- The call `msg.substr(pos, count)`: `none` is the exception `std::out_of_range`
(`pos > size()`); otherwise at most `count` characters from `pos` on. -/
def substr (msg : List Char) (pos count : Nat) : Option (List Char) :=
  if pos > msg.length then none else some ((msg.drop pos).take count)

/-- The function `get_field1` of `cache_server.cc`.  In the last line `end` differs from
`begin`, so it is a position; for `npos` the count `npos - 1` exceeds every length and
`substr` takes the rest of the string. -/
def get_field1 (msg : String) : Option String :=
  let begin := find_first_of msg.data '/'
  let end_ := find_last_of msg.data '/'
  if end_ = begin then (substr msg.data (pos_succ begin) msg.data.length).map String.mk
  else
    match end_ with
    | some e => (substr msg.data (pos_succ begin) (e - 1)).map String.mk
    | none => (substr msg.data (pos_succ begin) msg.data.length).map String.mk

/-- The function `get_field2` of `cache_server.cc`. -/
def get_field2 (msg : String) : Option String :=
  let begin := find_first_of msg.data '/'
  let end_ := find_last_of msg.data '/'
  if end_ = begin then some " "
  else (substr msg.data (pos_succ end_) msg.data.length).map String.mk

/-! ## The eviction loops of `Cache::set` with a count of the `evict()` calls -/

/-- The inner loop of `Cache::set` (lines 97-101) as in `Cache.set_inner`, returning in
addition the number of `evict()` calls it made. -/
def Cache.set_inner_calls :
    Nat → Table → Fifo_Evictor → key_type → Option (Option key_type × Fifo_Evictor × Nat)
  | 0, _, _, _ => none
  | fuel + 1, table, ev, to_evict =>
    match unordered_map.find table to_evict with
    | none =>
      let r := ev.evict
      if r.1 = "" then some (none, r.2, 1)
      else
        match set_inner_calls fuel table r.2 r.1 with
        | none => none
        | some (k, ev2, n) => some (k, ev2, n + 1)
    | some _ => some (some to_evict, ev, 0)

/-- The outer loop of `Cache::set` (lines 91-112) as in `Cache.set_outer`, returning in
addition the number of `evict()` calls made by it and by the inner loop. -/
def Cache.set_outer_calls :
    Nat → Impl → Fifo_Evictor → Nat → Option (Bool × Fifo_Evictor × Impl × Nat)
  | 0, _, _, _ => none
  | fuel + 1, c, ev, memused =>
    if memused > c.maxmem then
      let r := ev.evict
      if r.1 = "" then some (false, r.2, c, 1)
      else
        match set_inner_calls fuel c.table r.2 r.1 with
        | none => none
        | some (none, ev2, n) => some (false, ev2, c, n + 1)
        | some (some to_evict, ev2, n) =>
          match unordered_map.find c.table to_evict with
          | none => some (false, ev2, c, n + 1)
          | some v =>
            match set_outer_calls fuel (Cache.del c to_evict).2 ev2 (memused - v.size_) with
            | none => none
            | some (ok, ev3, c3, n2) => some (ok, ev3, c3, n + 1 + n2)
    else some (true, ev, c, 0)

/-- The number of `evict()` calls made by `Cache::set` (lines 84-112): none without a
policy, otherwise the count of the loops run on the queue after `touch_key`. -/
def Cache.set_evict_calls (c : Impl) (key : key_type) (val : val_type) : Option Nat :=
  match c.evictor with
  | none => some 0
  | some ev0 =>
    let ev := ev0.touch_key key
    match set_outer_calls (ev.keys.length + 1) c ev (Cache.space_used c + val.size_) with
    | none => none
    | some (_, _, _, n) => some n

/-- The calls of the hit-rate scenario: `set("a")`, `get("a")` (a hit), `get("b")` (a
miss), `del("a")`, `get("a")` (a miss). -/
def hit_rate_scenario : List Op :=
  [Op.set "a" (bytes 8 1), Op.get "a", Op.get "b", Op.del "a", Op.get "a"]

/-! ## Facts about the table -/

theorem find_filter (p : key_type → Bool) (table : Table) (key : key_type) :
    unordered_map.find (table.filter (fun entry => p entry.1)) key =
      if p key then unordered_map.find table key else none := by
  induction table with
  | nil => simp [unordered_map.find]
  | cons e rest ih =>
    by_cases hp : p e.1 = true
    · by_cases hk : e.1 = key
      · subst hk; simp [List.filter_cons, hp, unordered_map.find]
      · simp [List.filter_cons, hp, unordered_map.find, hk, ih]
    · by_cases hk : e.1 = key
      · subst hk; simp [List.filter_cons, hp, unordered_map.find, ih]
      · simp [List.filter_cons, hp, unordered_map.find, hk, ih]

theorem find_eq_none_iff (table : Table) (key : key_type) :
    unordered_map.find table key = none ↔ key ∉ tkeys table := by
  induction table with
  | nil => simp [unordered_map.find, tkeys]
  | cons e rest ih =>
    by_cases hk : e.1 = key
    · simp [unordered_map.find, tkeys, hk]
    · have hk2 : ¬ key = e.1 := fun h => hk h.symm
      simp [unordered_map.find, hk, hk2, ih, tkeys] at *

theorem find_erase_self (table : Table) (key : key_type) :
    unordered_map.find (unordered_map.erase table key).2 key = none := by
  have h := find_filter (fun k => decide (¬ k = key)) table key
  simpa [unordered_map.erase] using h

theorem find_erase_ne (table : Table) (key key2 : key_type) (h : key2 ≠ key) :
    unordered_map.find (unordered_map.erase table key).2 key2 = unordered_map.find table key2 := by
  have h2 := find_filter (fun k => decide (¬ k = key)) table key2
  simpa [unordered_map.erase, h] using h2

theorem find_insert_self (table : Table) (key : key_type) (val : val_type)
    (h : unordered_map.find table key = none) :
    unordered_map.find (unordered_map.insert table key val) key = some val := by
  simp [unordered_map.insert, h, unordered_map.find]

theorem find_insert_ne (table : Table) (key key2 : key_type) (val : val_type)
    (h : key2 ≠ key) :
    unordered_map.find (unordered_map.insert table key val) key2 =
      unordered_map.find table key2 := by
  unfold unordered_map.insert
  cases hf : unordered_map.find table key with
  | none => simp [unordered_map.find, h.symm]
  | some v => simp

theorem space_used_eq (c : Impl) : Cache.space_used c = tsize c.table := by
  have h : ∀ (t : Table) (a : Nat),
      t.foldl (fun mem entry => mem + entry.2.size_) a = a + tsize t := by
    intro t
    induction t with
    | nil => intro a; simp [tsize]
    | cons e rest ih => intro a; simp [List.foldl_cons, ih, tsize]; omega
  simp [Cache.space_used, h]

theorem tsize_nil : tsize [] = 0 := rfl

theorem tsize_cons (e : key_type × val_type) (table : Table) :
    tsize (e :: table) = e.2.size_ + tsize table := by
  simp [tsize]

theorem tsize_filter_le (p : key_type × val_type → Bool) (table : Table) :
    tsize (table.filter p) ≤ tsize table := by
  induction table with
  | nil => simp
  | cons e rest ih =>
    by_cases hp : p e = true
    · rw [List.filter_cons_of_pos hp, tsize_cons, tsize_cons]; omega
    · rw [List.filter_cons_of_neg hp, tsize_cons]; omega

theorem tsize_erase_le (table : Table) (key : key_type) (v : val_type)
    (h : unordered_map.find table key = some v) :
    tsize (unordered_map.erase table key).2 + v.size_ ≤ tsize table := by
  induction table with
  | nil => simp [unordered_map.find] at h
  | cons e rest ih =>
    by_cases hk : e.1 = key
    · simp [unordered_map.find, hk] at h
      have h2 := tsize_filter_le (fun entry => decide (¬ entry.1 = key)) rest
      simp only [unordered_map.erase]
      rw [List.filter_cons_of_neg (by simp [hk]), tsize_cons, h]
      omega
    · simp [unordered_map.find, hk] at h
      have h2 := ih h
      simp only [unordered_map.erase] at h2 ⊢
      rw [List.filter_cons_of_pos (by simp [hk]), tsize_cons, tsize_cons]
      omega

theorem erase_of_find_none (table : Table) (key : key_type)
    (h : unordered_map.find table key = none) :
    (unordered_map.erase table key).2 = table := by
  rw [find_eq_none_iff] at h
  simp only [unordered_map.erase]
  rw [List.filter_eq_self]
  intro e he
  have : e.1 ≠ key := by
    intro hk
    apply h
    rw [← hk]
    exact List.mem_map_of_mem Prod.fst he
  simp [this]

theorem erase_count_pos (table : Table) (key : key_type) (v : val_type)
    (h : unordered_map.find table key = some v) :
    (unordered_map.erase table key).1 ≠ 0 := by
  induction table with
  | nil => simp [unordered_map.find] at h
  | cons e rest ih =>
    by_cases hk : e.1 = key
    · simp [unordered_map.erase, List.filter_cons, hk]
    · simp [unordered_map.find, hk] at h
      have := ih h
      simpa [unordered_map.erase, List.filter_cons, hk] using this

/-! ## Facts about `del` -/

theorem del_snd (c : Impl) (key : key_type) :
    (Cache.del c key).2 = { c with table := (unordered_map.erase c.table key).2 } := by
  unfold Cache.del
  cases h : unordered_map.find c.table key with
  | none => simp [erase_of_find_none _ _ h]
  | some v => simp

theorem del_fst (c : Impl) (key : key_type) :
    (Cache.del c key).1 = (unordered_map.find c.table key).isSome := by
  unfold Cache.del
  cases h : unordered_map.find c.table key with
  | none => simp
  | some v => simpa using erase_count_pos _ _ _ h

/-! ## Facts about the eviction loops of `set` -/

theorem evict_keys_suffix (ev : Fifo_Evictor) : ev.evict.2.keys <:+ ev.keys := by
  unfold Fifo_Evictor.evict
  cases h : ev.keys with
  | nil => simp [h]
  | cons k rest => simp

theorem evict_keys_length (ev : Fifo_Evictor) (h : ev.evict.1 ≠ "") :
    ev.evict.2.keys.length + 1 = ev.keys.length := by
  unfold Fifo_Evictor.evict at h ⊢
  cases hk : ev.keys with
  | nil => simp [hk] at h
  | cons k rest => rfl

theorem set_inner_total (fuel : Nat) (table : Table) :
    ∀ (ev : Fifo_Evictor) (k : key_type), ev.keys.length < fuel →
      ∃ r, Cache.set_inner fuel table ev k = some r := by
  induction fuel with
  | zero => intro ev k h; omega
  | succ n ih =>
    intro ev k h
    unfold Cache.set_inner
    cases hf : unordered_map.find table k with
    | some v => exact ⟨_, rfl⟩
    | none =>
      by_cases he : ev.evict.1 = ""
      · simp [he]
      · simp only [he, if_false]
        apply ih
        have := evict_keys_length ev he
        omega

theorem set_inner_suffix (fuel : Nat) (table : Table) :
    ∀ (ev ev2 : Fifo_Evictor) (k : key_type) (r : Option key_type),
      Cache.set_inner fuel table ev k = some (r, ev2) → ev2.keys <:+ ev.keys := by
  induction fuel with
  | zero => intro ev ev2 k r h; simp [Cache.set_inner] at h
  | succ n ih =>
    intro ev ev2 k r h
    unfold Cache.set_inner at h
    cases hf : unordered_map.find table k with
    | some v =>
      simp [hf] at h
      rw [← h.2]
    | none =>
      simp only [hf] at h
      by_cases he : ev.evict.1 = ""
      · simp [he] at h
        rw [← h.2]
        exact evict_keys_suffix ev
      · simp only [he, if_false] at h
        exact (ih _ _ _ _ h).trans (evict_keys_suffix ev)

theorem set_inner_found (fuel : Nat) (table : Table) :
    ∀ (ev ev2 : Fifo_Evictor) (k k2 : key_type),
      Cache.set_inner fuel table ev k = some (some k2, ev2) →
        ∃ v, unordered_map.find table k2 = some v := by
  induction fuel with
  | zero => intro ev ev2 k k2 h; simp [Cache.set_inner] at h
  | succ n ih =>
    intro ev ev2 k k2 h
    unfold Cache.set_inner at h
    cases hf : unordered_map.find table k with
    | some v =>
      simp [hf] at h
      rw [← h.1]
      exact ⟨v, hf⟩
    | none =>
      simp only [hf] at h
      by_cases he : ev.evict.1 = ""
      · simp [he] at h
      · simp only [he, if_false] at h
        exact ih _ _ _ _ h

theorem set_outer_total (fuel : Nat) :
    ∀ (c : Impl) (ev : Fifo_Evictor) (m : Nat), ev.keys.length < fuel →
      ∃ r, Cache.set_outer fuel c ev m = some r := by
  induction fuel with
  | zero => intro c ev m h; omega
  | succ n ih =>
    intro c ev m h
    unfold Cache.set_outer
    by_cases hm : m > c.maxmem
    · simp only [hm, if_true]
      by_cases he : ev.evict.1 = ""
      · simp [he]
      · simp only [he, if_false]
        have hl := evict_keys_length ev he
        obtain ⟨r, hr⟩ := set_inner_total n c.table ev.evict.2 ev.evict.1 (by omega)
        rw [hr]
        obtain ⟨r1, ev2⟩ := r
        cases r1 with
        | none => exact ⟨_, rfl⟩
        | some k2 =>
          have hs := (set_inner_suffix _ _ _ _ _ _ hr).length_le
          simp only []
          cases hf : unordered_map.find c.table k2 with
          | none => exact ⟨_, rfl⟩
          | some v =>
            simp only []
            apply ih
            omega
    · simp [hm]

theorem filter_filter_keys (table : Table) (k : key_type) (ks : List key_type) :
    (table.filter (fun e => decide (¬ e.1 = k))).filter (fun e => decide (e.1 ∉ ks)) =
      table.filter (fun e => decide (e.1 ∉ k :: ks)) := by
  rw [List.filter_filter]
  congr 1
  funext e
  by_cases h1 : e.1 = k <;> by_cases h2 : e.1 ∈ ks <;> simp [h1, h2]

theorem set_outer_spec (s : Nat) (fuel : Nat) :
    ∀ (c : Impl) (ev : Fifo_Evictor) (m : Nat) (ok : Bool) (ev2 : Fifo_Evictor) (c2 : Impl),
      tsize c.table + s ≤ m →
      Cache.set_outer fuel c ev m = some (ok, ev2, c2) →
        (∃ ks : List key_type,
          c2 = { c with table := c.table.filter (fun e => decide (e.1 ∉ ks)) }) ∧
        (ok = true → tsize c2.table + s ≤ c.maxmem) ∧ ev2.keys <:+ ev.keys := by
  induction fuel with
  | zero => intro c ev m ok ev2 c2 _ h; simp [Cache.set_outer] at h
  | succ n ih =>
    intro c ev m ok ev2 c2 hm h
    unfold Cache.set_outer at h
    by_cases hgt : m > c.maxmem
    · simp only [hgt, if_true] at h
      by_cases he : ev.evict.1 = ""
      · simp only [he, if_true, Option.some.injEq, Prod.mk.injEq] at h
        obtain ⟨h1, h2, h3⟩ := h
        subst h1 h2 h3
        exact ⟨⟨[], by simp⟩, by simp, evict_keys_suffix ev⟩
      · simp only [he, if_false] at h
        cases hr : Cache.set_inner n c.table ev.evict.2 ev.evict.1 with
        | none => simp [hr] at h
        | some r =>
          obtain ⟨r1, ev3⟩ := r
          have hsuf := (set_inner_suffix _ _ _ _ _ _ hr).trans (evict_keys_suffix ev)
          cases r1 with
          | none =>
            simp only [hr, Option.some.injEq, Prod.mk.injEq] at h
            obtain ⟨h1, h2, h3⟩ := h
            subst h1 h2 h3
            exact ⟨⟨[], by simp⟩, by simp, hsuf⟩
          | some k2 =>
            simp only [hr] at h
            cases hf : unordered_map.find c.table k2 with
            | none =>
              simp only [hf, Option.some.injEq, Prod.mk.injEq] at h
              obtain ⟨h1, h2, h3⟩ := h
              subst h1 h2 h3
              exact ⟨⟨[], by simp⟩, by simp, hsuf⟩
            | some v =>
              simp only [hf] at h
              have hle := tsize_erase_le _ _ _ hf
              have hd := del_snd c k2
              have hm2 : tsize (Cache.del c k2).2.table + s ≤ m - v.size_ := by
                rw [hd]; simp only []; omega
              obtain ⟨⟨ks, hks⟩, hok, hs2⟩ := ih _ _ _ _ _ _ hm2 h
              refine ⟨⟨k2 :: ks, ?_⟩, ?_, hs2.trans hsuf⟩
              · rw [hks, hd]
                simp only [unordered_map.erase]
                rw [filter_filter_keys]
              · intro hokt
                have := hok hokt
                rw [hd] at this
                exact this
    · simp only [hgt, if_false, Option.some.injEq, Prod.mk.injEq] at h
      obtain ⟨h1, h2, h3⟩ := h
      subst h1 h2 h3
      exact ⟨⟨[], by simp⟩, fun _ => by omega, List.suffix_refl _⟩

theorem set_evict_total (c : Impl) (key : key_type) (val : val_type) :
    ∃ r, Cache.set_evict c key val = some r := by
  unfold Cache.set_evict
  cases he : c.evictor with
  | none =>
    by_cases h : Cache.space_used c + val.size_ > c.maxmem
    · simp [h]
    · simp [h]
  | some ev0 =>
    obtain ⟨r, hr⟩ := set_outer_total ((ev0.touch_key key).keys.length + 1) c
      (ev0.touch_key key) (Cache.space_used c + val.size_) (by omega)
    simp only [hr]
    exact ⟨_, rfl⟩

theorem set_evict_spec (c : Impl) (key : key_type) (val : val_type) (ok : Bool) (c2 : Impl)
    (h : Cache.set_evict c key val = some (ok, c2)) :
    (∃ ks : List key_type, c2.table = c.table.filter (fun e => decide (e.1 ∉ ks))) ∧
    c2.maxmem = c.maxmem ∧ c2.gets = c.gets ∧ c2.successful_gets = c.successful_gets ∧
    (ok = true → tsize c2.table + val.size_ ≤ c.maxmem) ∧
    (c.evictor = none → c2 = c) ∧
    (c.evictor = none → (ok = true ↔ tsize c.table + val.size_ ≤ c.maxmem)) := by
  unfold Cache.set_evict at h
  cases he : c.evictor with
  | none =>
    simp only [he] at h
    rw [space_used_eq] at h
    by_cases hgt : tsize c.table + val.size_ > c.maxmem
    · simp only [hgt, if_true, Option.some.injEq, Prod.mk.injEq] at h
      obtain ⟨h1, h2⟩ := h
      subst h1 h2
      refine ⟨⟨[], by simp⟩, rfl, rfl, rfl, by simp, fun _ => rfl, fun _ => ?_⟩
      simp; omega
    · simp only [hgt, if_false, Option.some.injEq, Prod.mk.injEq] at h
      obtain ⟨h1, h2⟩ := h
      subst h1 h2
      refine ⟨⟨[], by simp⟩, rfl, rfl, rfl, fun _ => by omega, fun _ => rfl, fun _ => ?_⟩
      simp; omega
  | some ev0 =>
    simp only [he] at h
    cases hr : Cache.set_outer ((ev0.touch_key key).keys.length + 1) c (ev0.touch_key key)
        (Cache.space_used c + val.size_) with
    | none => simp [hr] at h
    | some r =>
      obtain ⟨ok1, ev2, c3⟩ := r
      simp only [hr, Option.some.injEq, Prod.mk.injEq] at h
      obtain ⟨h1, h2⟩ := h
      subst h1 h2
      have hsp := set_outer_spec val.size_ _ c _ _ _ _ _ (by rw [space_used_eq]) hr
      obtain ⟨⟨ks, hks⟩, hok, _⟩ := hsp
      subst hks
      exact ⟨⟨ks, rfl⟩, rfl, rfl, rfl, hok, by simp, by simp⟩

/-! ## Facts about `set` -/

theorem set_total (c : Impl) (key : key_type) (val : val_type) :
    ∃ r, Cache.set c key val = some r := by
  obtain ⟨⟨ok, c2⟩, hr⟩ := set_evict_total c key val
  unfold Cache.set
  rw [hr]
  cases ok with
  | false => exact ⟨_, rfl⟩
  | true => exact ⟨_, rfl⟩

theorem set_cases (c : Impl) (key : key_type) (val : val_type) (ok : Bool) (c1 : Impl)
    (h : Cache.set c key val = some (ok, c1)) :
    ∃ c2, Cache.set_evict c key val = some (ok, c2) ∧
      (ok = false → c1 = c2) ∧
      (ok = true → c1 = { c2 with
        table := (key, stored val) :: (unordered_map.erase c2.table key).2 }) := by
  unfold Cache.set at h
  cases hr : Cache.set_evict c key val with
  | none => simp [hr] at h
  | some r =>
    obtain ⟨ok2, c2⟩ := r
    cases ok2 with
    | false =>
      simp only [hr, Option.some.injEq, Prod.mk.injEq] at h
      obtain ⟨h1, h2⟩ := h
      subst h1 h2
      exact ⟨c2, rfl, fun _ => rfl, fun h => by simp at h⟩
    | true =>
      simp only [hr, Option.some.injEq, Prod.mk.injEq] at h
      obtain ⟨h1, h2⟩ := h
      subst h1
      refine ⟨c2, rfl, fun h => by simp at h, fun _ => ?_⟩
      rw [← h2]
      have hc3 : (match unordered_map.find c2.table key with
          | some _ => (Cache.del c2 key).2
          | none => c2) = { c2 with table := (unordered_map.erase c2.table key).2 } := by
        cases hf : unordered_map.find c2.table key with
        | none => simp [erase_of_find_none _ _ hf]
        | some v => simp [del_snd]
      rw [hc3]
      simp only [unordered_map.insert, find_erase_self, stored]

theorem set_frame (c : Impl) (key : key_type) (val : val_type) (ok : Bool) (c1 : Impl)
    (h : Cache.set c key val = some (ok, c1)) :
    c1.maxmem = c.maxmem ∧ c1.gets = c.gets ∧ c1.successful_gets = c.successful_gets := by
  obtain ⟨c2, he, hf, ht⟩ := set_cases c key val ok c1 h
  obtain ⟨_, h1, h2, h3, _⟩ := set_evict_spec c key val ok c2 he
  cases ok with
  | false => rw [hf rfl]; exact ⟨h1, h2, h3⟩
  | true => rw [ht rfl]; exact ⟨h1, h2, h3⟩

theorem set_capacity (c : Impl) (key : key_type) (val : val_type) (ok : Bool) (c1 : Impl)
    (h : Cache.set c key val = some (ok, c1)) (hc : tsize c.table ≤ c.maxmem) :
    tsize c1.table ≤ c.maxmem := by
  obtain ⟨c2, he, hf, ht⟩ := set_cases c key val ok c1 h
  obtain ⟨⟨ks, hks⟩, _, _, _, hok, _⟩ := set_evict_spec c key val ok c2 he
  cases ok with
  | false =>
    rw [hf rfl, hks]
    exact (tsize_filter_le _ _).trans hc
  | true =>
    rw [ht rfl]
    have h1 := hok rfl
    have h2 := tsize_filter_le (fun entry => decide (¬ entry.1 = key)) c2.table
    simp only [tsize_cons, stored, unordered_map.erase]
    omega

theorem reset_loop_eq (table : Table) : Cache.reset_loop table = [] := by
  induction table with
  | nil => rfl
  | cons e rest ih => simpa [Cache.reset_loop] using ih

theorem step_capacity (c c1 : Impl) (op : Op) (h : Cache.step c op = some c1)
    (hc : tsize c.table ≤ c.maxmem) : tsize c1.table ≤ c1.maxmem ∧ c1.maxmem = c.maxmem := by
  cases op with
  | set key val =>
    simp only [Cache.step, Option.map_eq_some'] at h
    obtain ⟨⟨ok, c2⟩, hs, h2⟩ := h
    simp only at h2
    subst h2
    have hfr := set_frame c key val ok c2 hs
    have := set_capacity c key val ok c2 hs hc
    exact ⟨by rw [hfr.1]; exact this, hfr.1⟩
  | get key =>
    simp only [Cache.step, Option.some.injEq] at h
    subst h
    unfold Cache.get
    cases hf : unordered_map.find c.table key <;> simp [hf, hc]
  | del key =>
    simp only [Cache.step, Option.some.injEq] at h
    subst h
    rw [del_snd]
    exact ⟨(tsize_filter_le _ _).trans hc, rfl⟩
  | reset =>
    simp only [Cache.step, Option.some.injEq] at h
    subst h
    simp [Cache.reset, reset_loop_eq, tsize_nil]

theorem step_total (c : Impl) (op : Op) : ∃ c1, Cache.step c op = some c1 := by
  cases op with
  | set key val =>
    obtain ⟨r, hr⟩ := set_total c key val
    exact ⟨r.2, by simp [Cache.step, hr]⟩
  | get key => exact ⟨_, rfl⟩
  | del key => exact ⟨_, rfl⟩
  | reset => exact ⟨_, rfl⟩

theorem run_total (ops : List Op) : ∀ c : Impl, ∃ c1, Cache.run c ops = some c1 := by
  induction ops with
  | nil => intro c; exact ⟨c, rfl⟩
  | cons op rest ih =>
    intro c
    obtain ⟨c1, h1⟩ := step_total c op
    obtain ⟨c2, h2⟩ := ih c1
    exact ⟨c2, by simp [Cache.run, h1, h2]⟩

theorem run_capacity (ops : List Op) :
    ∀ c c1 : Impl, Cache.run c ops = some c1 → tsize c.table ≤ c.maxmem →
      tsize c1.table ≤ c1.maxmem ∧ c1.maxmem = c.maxmem := by
  induction ops with
  | nil =>
    intro c c1 h hc
    simp only [Cache.run, Option.some.injEq] at h
    subst h
    exact ⟨hc, rfl⟩
  | cons op rest ih =>
    intro c c1 h hc
    simp only [Cache.run] at h
    cases hs : Cache.step c op with
    | none => simp [hs] at h
    | some c2 =>
      simp only [hs] at h
      obtain ⟨h1, h2⟩ := step_capacity c c2 op hs hc
      obtain ⟨h3, h4⟩ := ih c2 c1 h h1
      exact ⟨h3, h4.trans h2⟩

/-- C1 (capacity invariant).  From a newly constructed cache, with any eviction policy
state or with none, every sequence of `set`, `get`, `del` and `reset` calls runs to
completion, and in the state it reaches `space_used()` is at most `maxmem`; moreover a
further `set` (whatever it returns, so in particular when it returns true) again ends in a
state with `space_used()` at most `maxmem`. -/
theorem C1_capacity_invariant (maxmem : Nat) (evictor : Option Fifo_Evictor) (ops : List Op) :
    ∃ c, Cache.run (Cache.new maxmem evictor) ops = some c ∧
      Cache.space_used c ≤ maxmem ∧
      ∀ key val, ∃ ok c1, Cache.set c key val = some (ok, c1) ∧
        Cache.space_used c1 ≤ maxmem := by
  obtain ⟨c, hc⟩ := run_total ops (Cache.new maxmem evictor)
  have h0 : tsize (Cache.new maxmem evictor).table ≤ (Cache.new maxmem evictor).maxmem := by
    simp [Cache.new, tsize_nil]
  obtain ⟨h1, h2⟩ := run_capacity ops _ c hc h0
  have hm : c.maxmem = maxmem := h2
  refine ⟨c, hc, by rw [space_used_eq]; omega, ?_⟩
  intro key val
  obtain ⟨⟨ok, c1⟩, hs⟩ := set_total c key val
  refine ⟨ok, c1, hs, ?_⟩
  have := set_capacity c key val ok c1 hs h1
  rw [space_used_eq]; omega

theorem memcpy_memcpy (d : Option (List byte_type)) (n : Nat) :
    memcpy (some (memcpy d n)) n = memcpy d n := by
  simp [memcpy, List.take_take]

theorem get_of_find_some (c : Impl) (key : key_type) (v : val_type)
    (h : unordered_map.find c.table key = some v) :
    (Cache.get c key).1 = ⟨some (memcpy v.data_ v.size_), v.size_⟩ := by
  simp [Cache.get, h]

theorem get_of_find_none (c : Impl) (key : key_type)
    (h : unordered_map.find c.table key = none) :
    (Cache.get c key).1 = ⟨none, 0⟩ := by
  simp [Cache.get, h]

theorem set_true_find (c : Impl) (key : key_type) (val : val_type) (c1 : Impl)
    (h : Cache.set c key val = some (true, c1)) :
    unordered_map.find c1.table key = some (stored val) := by
  obtain ⟨c2, _, _, ht⟩ := set_cases c key val true c1 h
  rw [ht rfl]
  simp [unordered_map.find]

/-- C2 (round trip).  If `set(key, val)` returns true, the next `get(key)` returns a
present value (a non-null buffer) whose size is `val.size_` and whose bytes are the first
`val.size_` bytes of the caller's buffer; for a value whose buffer holds exactly `size_`
bytes the result equals `val`.  The state before `set` is arbitrary, so `key` may have
held another value. -/
theorem C2_round_trip (c : Impl) (key : key_type) (val : val_type) (c1 : Impl)
    (h : Cache.set c key val = some (true, c1)) :
    (Cache.get c1 key).1 = ⟨some (memcpy val.data_ val.size_), val.size_⟩ ∧
    (∀ bs : List byte_type, val = ⟨some bs, bs.length⟩ → (Cache.get c1 key).1 = val) := by
  have hf := set_true_find c key val c1 h
  have hg := get_of_find_some c1 key _ hf
  simp only [stored, memcpy_memcpy] at hg
  refine ⟨hg, ?_⟩
  intro bs hbs
  rw [hg, hbs]
  simp [memcpy]

/-- Witness for C2: overwriting the 32-byte value under `"a"` with a 16-byte value. -/
theorem C2_round_trip_witness :
    Cache.set ⟨64, some ⟨["a"]⟩, 0, 0, [("a", bytes 32 1)]⟩ "a" (bytes 16 7) =
      some (true, ⟨64, some ⟨["a", "a"]⟩, 0, 0, [("a", bytes 16 7)]⟩) ∧
    (Cache.get ⟨64, some ⟨["a", "a"]⟩, 0, 0, [("a", bytes 16 7)]⟩ "a").1 = bytes 16 7 :=
  ⟨by decide,
   (C2_round_trip ⟨64, some ⟨["a"]⟩, 0, 0, [("a", bytes 32 1)]⟩ "a" (bytes 16 7)
      ⟨64, some ⟨["a", "a"]⟩, 0, 0, [("a", bytes 16 7)]⟩ (by decide)).2
      (List.replicate 16 7) (by decide)⟩

/-- C3, as stated, fails: on a FIFO cache with `maxmem = 64` that holds 32 bytes under
`"a"` (the state reached by one `set`), a `set` of a 100-byte value under `"b"` returns
false but evicts `"a"`, so the table is not the table before. -/
theorem C3_counterexample :
    Cache.set (Cache.new 64 (some ⟨[]⟩)) "a" (bytes 32 1) =
      some (true, ⟨64, some ⟨["a"]⟩, 0, 0, [("a", bytes 32 1)]⟩) ∧
    (bytes 100 2).size_ > 64 ∧
    Cache.set ⟨64, some ⟨["a"]⟩, 0, 0, [("a", bytes 32 1)]⟩ "b" (bytes 100 2) =
      some (false, ⟨64, some ⟨[]⟩, 0, 0, []⟩) ∧
    (⟨64, some ⟨[]⟩, 0, 0, []⟩ : Impl).table ≠
      (⟨64, some ⟨["a"]⟩, 0, 0, [("a", bytes 32 1)]⟩ : Impl).table := by
  decide

theorem set_too_large (c : Impl) (key : key_type) (val : val_type)
    (h : val.size_ > c.maxmem) :
    ∃ c1, Cache.set c key val = some (false, c1) ∧
      (∃ ks : List key_type, c1.table = c.table.filter (fun e => decide (e.1 ∉ ks))) ∧
      (c.evictor = none → c1 = c) := by
  obtain ⟨⟨ok, c1⟩, hs⟩ := set_total c key val
  obtain ⟨c2, he, hf, _⟩ := set_cases c key val ok c1 hs
  obtain ⟨hks, _, _, _, hok, hn, _⟩ := set_evict_spec c key val ok c2 he
  cases ok with
  | true => have := hok rfl; omega
  | false =>
    have h12 := hf rfl
    subst h12
    exact ⟨c1, hs, hks, hn⟩

/-- C3 (amended).  For a value with `size_ > maxmem`, `set` returns false and adds or
changes no entry: the table afterwards is the table before with the entries of some keys
removed, so every key is afterwards absent or holds its previous value; with no eviction
policy the whole state is unchanged. -/
theorem C3_reject_too_large (c : Impl) (key : key_type) (val : val_type)
    (h : val.size_ > c.maxmem) :
    ∃ c1, Cache.set c key val = some (false, c1) ∧
      (∃ ks : List key_type, c1.table = c.table.filter (fun e => decide (e.1 ∉ ks))) ∧
      (∀ k, unordered_map.find c1.table k = none ∨
        unordered_map.find c1.table k = unordered_map.find c.table k) ∧
      (c.evictor = none → c1 = c) := by
  obtain ⟨c1, hs, ⟨ks, hks⟩, hn⟩ := set_too_large c key val h
  refine ⟨c1, hs, ⟨ks, hks⟩, ?_, hn⟩
  intro k
  rw [hks, find_filter (fun k => decide (k ∉ ks))]
  by_cases hk : k ∈ ks <;> simp [hk]

/-- Witness for C3 (amended): a 100-byte value on a 64-byte cache without a policy. -/
theorem C3_reject_too_large_witness :
    ∃ c1, Cache.set ⟨64, none, 0, 0, [("a", bytes 32 1)]⟩ "b" (bytes 100 2) = some (false, c1) ∧
      (∃ ks : List key_type,
        c1.table = [("a", bytes 32 1)].filter (fun e => decide (e.1 ∉ ks))) ∧
      (∀ k, unordered_map.find c1.table k = none ∨
        unordered_map.find c1.table k = unordered_map.find [("a", bytes 32 1)] k) ∧
      ((none : Option Fifo_Evictor) = none → c1 = ⟨64, none, 0, 0, [("a", bytes 32 1)]⟩) :=
  C3_reject_too_large ⟨64, none, 0, 0, [("a", bytes 32 1)]⟩ "b" (bytes 100 2) (by decide)

/-- C6 at its failing inputs.  Without a policy, on a 64-byte cache that holds 64 bytes
under `"a"` (the state reached by one `set`), replacing that value by another 64-byte
value fits (`64 - 64 + 64 <= 64`) but `set` returns false and the old value stays.  With a
FIFO policy, after `set("b", 32 bytes)` and `set("a", 32 bytes)`, replacing the value under
`"a"` by another 32-byte value fits (`64 - 32 + 32 <= 64`) but evicts the other key `"b"`. -/
theorem C6_overwrite_double_counted :
    Cache.set (Cache.new 64 none) "a" (bytes 64 1) =
      some (true, ⟨64, none, 0, 0, [("a", bytes 64 1)]⟩) ∧
    Cache.space_used ⟨64, none, 0, 0, [("a", bytes 64 1)]⟩ - 64 + (bytes 64 2).size_ ≤ 64 ∧
    Cache.set ⟨64, none, 0, 0, [("a", bytes 64 1)]⟩ "a" (bytes 64 2) =
      some (false, ⟨64, none, 0, 0, [("a", bytes 64 1)]⟩) ∧
    Cache.set (Cache.new 64 (some ⟨[]⟩)) "b" (bytes 32 1) =
      some (true, ⟨64, some ⟨["b"]⟩, 0, 0, [("b", bytes 32 1)]⟩) ∧
    Cache.set ⟨64, some ⟨["b"]⟩, 0, 0, [("b", bytes 32 1)]⟩ "a" (bytes 32 2) =
      some (true, ⟨64, some ⟨["b", "a"]⟩, 0, 0, [("a", bytes 32 2), ("b", bytes 32 1)]⟩) ∧
    Cache.space_used ⟨64, some ⟨["b", "a"]⟩, 0, 0, [("a", bytes 32 2), ("b", bytes 32 1)]⟩
      - 32 + (bytes 32 3).size_ ≤ 64 ∧
    Cache.set ⟨64, some ⟨["b", "a"]⟩, 0, 0, [("a", bytes 32 2), ("b", bytes 32 1)]⟩
        "a" (bytes 32 3) =
      some (true, ⟨64, some ⟨["a", "a"]⟩, 0, 0, [("a", bytes 32 3)]⟩) := by
  decide

/-- C7 at its failing input.  On a FIFO cache with `maxmem = 64`, `set("", 32 bytes)` and
`set("a", 32 bytes)` return true; then `set("b", 32 bytes)` pops the candidate `""`, takes
it for "no candidate" and returns false: nothing is evicted, `"b"` is not stored, and the
policy still holds the candidates `"a"` and `"b"`. -/
theorem C7_empty_key_taken_for_no_candidate :
    Cache.set (Cache.new 64 (some ⟨[]⟩)) "" (bytes 32 1) =
      some (true, ⟨64, some ⟨[""]⟩, 0, 0, [("", bytes 32 1)]⟩) ∧
    Cache.set ⟨64, some ⟨[""]⟩, 0, 0, [("", bytes 32 1)]⟩ "a" (bytes 32 2) =
      some (true, ⟨64, some ⟨["", "a"]⟩, 0, 0, [("a", bytes 32 2), ("", bytes 32 1)]⟩) ∧
    Cache.set ⟨64, some ⟨["", "a"]⟩, 0, 0, [("a", bytes 32 2), ("", bytes 32 1)]⟩
        "b" (bytes 32 3) =
      some (false, ⟨64, some ⟨["a", "b"]⟩, 0, 0, [("a", bytes 32 2), ("", bytes 32 1)]⟩) := by
  decide

/-- C9 (absence).  `get(key)` returns the absent marker `{nullptr, 0}` exactly when `key`
is not in the table, and its buffer pointer is null exactly then.  In particular it is
absent on a new cache, after `del(key)` and after `reset()`.  A stored value of size 0 is
returned as a present value (a non-null, empty buffer) of size 0, which differs from the
absent marker. -/
theorem C9_absence (c : Impl) (key : key_type) (d : Option (List byte_type))
    (maxmem : Nat) (evictor : Option Fifo_Evictor) :
    ((Cache.get c key).1 = ⟨none, 0⟩ ↔ unordered_map.find c.table key = none) ∧
    ((Cache.get c key).1.data_ = none ↔ unordered_map.find c.table key = none) ∧
    (Cache.get (Cache.new maxmem evictor) key).1 = ⟨none, 0⟩ ∧
    (Cache.get (Cache.del c key).2 key).1 = ⟨none, 0⟩ ∧
    (Cache.get (Cache.reset c).2 key).1 = ⟨none, 0⟩ ∧
    (Cache.get { c with table := (key, ⟨d, 0⟩) :: c.table } key).1 = ⟨some [], 0⟩ ∧
    (⟨some [], 0⟩ : val_type) ≠ ⟨none, 0⟩ := by
  refine ⟨?_, ?_, ?_, ?_, ?_, ?_, by simp⟩
  · cases hf : unordered_map.find c.table key with
    | none => simp [Cache.get, hf]
    | some v => simp [Cache.get, hf]
  · cases hf : unordered_map.find c.table key with
    | none => simp [Cache.get, hf]
    | some v => simp [Cache.get, hf]
  · simp [Cache.get, Cache.new, unordered_map.find]
  · apply get_of_find_none
    rw [del_snd]
    exact find_erase_self _ _
  · simp [Cache.get, Cache.reset, reset_loop_eq, unordered_map.find]
  · simp [Cache.get, unordered_map.find, memcpy]

/-- C10 (delete).  `del(key)` returns true exactly when `key` was in the table before the
call; afterwards `key` is absent (for `find` and for `get`), and a second `del(key)`
returns false. -/
theorem C10_delete (c : Impl) (key : key_type) :
    ((Cache.del c key).1 = true ↔ unordered_map.find c.table key ≠ none) ∧
    unordered_map.find (Cache.del c key).2.table key = none ∧
    (Cache.get (Cache.del c key).2 key).1 = ⟨none, 0⟩ ∧
    (Cache.del (Cache.del c key).2 key).1 = false := by
  have hf : unordered_map.find (Cache.del c key).2.table key = none := by
    rw [del_snd]
    exact find_erase_self _ _
  refine ⟨?_, hf, get_of_find_none _ _ hf, ?_⟩
  · rw [del_fst]
    cases unordered_map.find c.table key <;> simp
  · rw [del_fst, hf]
    rfl

/-! ## The eviction loops under the FIFO invariant -/

theorem mem_tkeys_filter (p : key_type → Bool) (table : Table) (x : key_type) :
    x ∈ tkeys (table.filter (fun e => p e.1)) ↔ x ∈ tkeys table ∧ p x = true := by
  simp only [tkeys, List.mem_map, List.mem_filter]
  constructor
  · rintro ⟨e, ⟨he, hp⟩, rfl⟩
    exact ⟨⟨e, he, rfl⟩, hp⟩
  · rintro ⟨⟨e, he, rfl⟩, hp⟩
    exact ⟨e, ⟨he, hp⟩, rfl⟩

theorem nodup_tkeys_filter (p : key_type × val_type → Bool) (table : Table)
    (h : (tkeys table).Nodup) : (tkeys (table.filter p)).Nodup :=
  List.Nodup.sublist (List.Sublist.map Prod.fst (List.filter_sublist table)) h

theorem tsize_erase_eq (table : Table) (key : key_type) (v : val_type)
    (hn : (tkeys table).Nodup) (h : unordered_map.find table key = some v) :
    tsize (unordered_map.erase table key).2 + v.size_ = tsize table := by
  induction table with
  | nil => simp [unordered_map.find] at h
  | cons e rest ih =>
    simp only [tkeys, List.map_cons, List.nodup_cons] at hn
    by_cases hk : e.1 = key
    · simp [unordered_map.find, hk] at h
      have hnone : unordered_map.find rest key = none := by
        rw [find_eq_none_iff, ← hk]; exact hn.1
      have he := erase_of_find_none rest key hnone
      simp only [unordered_map.erase] at he ⊢
      rw [List.filter_cons_of_neg (by simp [hk]), he, tsize_cons, h]
      omega
    · simp [unordered_map.find, hk] at h
      have h2 := ih hn.2 h
      simp only [unordered_map.erase] at h2 ⊢
      rw [List.filter_cons_of_pos (by simp [hk]), tsize_cons, tsize_cons]
      omega

theorem exists_key_of_tsize_pos (table : Table) (h : 0 < tsize table) :
    ∃ x, x ∈ tkeys table := by
  cases table with
  | nil => simp [tsize_nil] at h
  | cons e rest => exact ⟨e.1, by simp [tkeys]⟩

theorem set_inner_success (table : Table) (tl : List key_type) (fuel : Nat) :
    ∀ (q : List key_type) (k : key_type), (q ++ tl).length < fuel → "" ∉ q →
      (∀ x ∈ tkeys table, x ∈ k :: q) → (∃ x, x ∈ tkeys table) →
      ∃ k2 q2 v, Cache.set_inner fuel table ⟨q ++ tl⟩ k = some (some k2, ⟨q2 ++ tl⟩) ∧
        unordered_map.find table k2 = some v ∧ q2 <:+ q ∧
        ∀ x ∈ tkeys table, x ≠ k2 → x ∈ q2 := by
  induction fuel with
  | zero => intro q k h; omega
  | succ n ih =>
    intro q k hlen hq hsub hne
    unfold Cache.set_inner
    cases hf : unordered_map.find table k with
    | some v =>
      refine ⟨k, q, v, rfl, hf, List.suffix_refl _, ?_⟩
      intro x hx hxk
      have := hsub x hx
      simp only [List.mem_cons] at this
      rcases this with h1 | h1
      · exact absurd h1 hxk
      · exact h1
    | none =>
      have hk : k ∉ tkeys table := (find_eq_none_iff _ _).1 hf
      have hsub2 : ∀ x ∈ tkeys table, x ∈ q := by
        intro x hx
        have := hsub x hx
        simp only [List.mem_cons] at this
        rcases this with h1 | h1
        · rw [h1] at hx; exact absurd hx hk
        · exact h1
      obtain ⟨x0, hx0⟩ := hne
      cases q with
      | nil => exact absurd (hsub2 x0 hx0) (by simp)
      | cons k1 q1 =>
        have hk1 : k1 ≠ "" := by
          intro h; apply hq; simp [h]
        have hq1 : "" ∉ q1 := by
          intro h; apply hq; simp [h]
        simp only [Fifo_Evictor.evict, List.cons_append, hk1, if_false]
        have hlen1 : (q1 ++ tl).length < n := by
          simp only [List.cons_append, List.length_cons] at hlen; omega
        obtain ⟨k2, q2, v, h1, h2, h3, h4⟩ := ih q1 k1 hlen1 hq1 hsub2 ⟨x0, hx0⟩
        exact ⟨k2, q2, v, h1, h2, h3.trans (List.suffix_cons k1 q1), h4⟩

theorem not_mem_of_suffix (q q2 : List key_type) (h : q2 <:+ q) (hq : "" ∉ q) : "" ∉ q2 :=
  fun hm => hq (h.subset hm)

theorem set_outer_success (s : Nat) (tl : List key_type) (fuel : Nat) :
    ∀ (c : Impl) (q : List key_type), (q ++ tl).length < fuel → "" ∉ q →
      (tkeys c.table).Nodup → (∀ x ∈ tkeys c.table, x ∈ q) → s ≤ c.maxmem →
      ∃ (q2 ks : List key_type), Cache.set_outer fuel c ⟨q ++ tl⟩ (tsize c.table + s) =
          some (true, ⟨q2 ++ tl⟩,
            { c with table := c.table.filter (fun e => decide (e.1 ∉ ks)) }) ∧
        q2 <:+ q ∧
        (∀ x ∈ tkeys (c.table.filter (fun e => decide (e.1 ∉ ks))), x ∈ q2) ∧
        tsize (c.table.filter (fun e => decide (e.1 ∉ ks))) + s ≤ c.maxmem := by
  induction fuel with
  | zero => intro c q h; omega
  | succ n ih =>
    intro c q hlen hq hnd hsub hs
    unfold Cache.set_outer
    by_cases hgt : tsize c.table + s > c.maxmem
    · simp only [hgt, if_true]
      obtain ⟨x0, hx0⟩ := exists_key_of_tsize_pos c.table (by omega)
      cases q with
      | nil => exact absurd (hsub x0 hx0) (by simp)
      | cons k1 q1 =>
        have hk1 : k1 ≠ "" := by
          intro h; apply hq; simp [h]
        have hq1 : "" ∉ q1 := by
          intro h; apply hq; simp [h]
        have hlen1 : (q1 ++ tl).length < n := by
          simp only [List.cons_append, List.length_cons] at hlen; omega
        simp only [Fifo_Evictor.evict, List.cons_append, hk1, if_false]
        obtain ⟨k2, q2, v, h1, h2, h3, h4⟩ :=
          set_inner_success c.table tl n q1 k1 hlen1 hq1 hsub ⟨x0, hx0⟩
        simp only [h1, h2]
        have hd := del_snd c k2
        have hsz := tsize_erase_eq c.table k2 v hnd h2
        have hlen2 : (q2 ++ tl).length < n := by
          have := h3.length_le
          simp only [List.length_append] at hlen1 ⊢; omega
        have hnd2 : (tkeys (Cache.del c k2).2.table).Nodup := by
          rw [hd]; exact nodup_tkeys_filter _ _ hnd
        have hsub2 : ∀ x ∈ tkeys (Cache.del c k2).2.table, x ∈ q2 := by
          intro x hx
          rw [hd] at hx
          have := (mem_tkeys_filter (fun k => decide (¬ k = k2)) c.table x).1 hx
          exact h4 x this.1 (by simpa using this.2)
        have hm : tsize c.table + s - v.size_ = tsize (Cache.del c k2).2.table + s := by
          rw [hd]; simp only []; omega
        rw [hm]
        obtain ⟨q3, ks, g1, g2, g3, g4⟩ :=
          ih (Cache.del c k2).2 q2 hlen2 (not_mem_of_suffix _ _ h3 hq1) hnd2 hsub2
            (by rw [hd]; exact hs)
        have hff : (Cache.del c k2).2.table.filter (fun e => decide (e.1 ∉ ks)) =
            c.table.filter (fun e => decide (e.1 ∉ k2 :: ks)) := by
          rw [hd]; simp only [unordered_map.erase]; rw [filter_filter_keys]
        refine ⟨q3, k2 :: ks, ?_, (g2.trans h3).trans (List.suffix_cons k1 q1), ?_, ?_⟩
        · rw [g1, hff, hd]
        · rw [← hff]; exact g3
        · rw [← hff]; rw [hd] at g4 ⊢; exact g4
    · simp only [hgt, if_false]
      refine ⟨q, [], ?_, List.suffix_refl _, ?_, ?_⟩
      · simp
      · simpa using hsub
      · simp; omega

theorem set_inner_keys (table : Table) (fuel : Nat) :
    ∀ (q : List key_type) (k : key_type) (r : Option key_type) (ev2 : Fifo_Evictor),
      "" ∉ q → (∀ x ∈ tkeys table, x ∈ k :: q) →
      Cache.set_inner fuel table ⟨q⟩ k = some (r, ev2) →
        ∀ x ∈ tkeys table, r ≠ some x → x ∈ ev2.keys := by
  induction fuel with
  | zero => intro q k r ev2 _ _ h; simp [Cache.set_inner] at h
  | succ n ih =>
    intro q k r ev2 hq hsub h
    unfold Cache.set_inner at h
    cases hf : unordered_map.find table k with
    | some v =>
      simp only [hf, Option.some.injEq, Prod.mk.injEq] at h
      obtain ⟨h1, h2⟩ := h
      subst h1 h2
      intro x hx hxk
      have := hsub x hx
      simp only [List.mem_cons] at this
      rcases this with h1 | h1
      · exact absurd (by rw [h1]) hxk
      · exact h1
    | none =>
      simp only [hf] at h
      have hk : k ∉ tkeys table := (find_eq_none_iff _ _).1 hf
      have hsub2 : ∀ x ∈ tkeys table, x ∈ q := by
        intro x hx
        have := hsub x hx
        simp only [List.mem_cons] at this
        rcases this with h1 | h1
        · rw [h1] at hx; exact absurd hx hk
        · exact h1
      cases q with
      | nil =>
        simp only [Fifo_Evictor.evict, if_true, Option.some.injEq, Prod.mk.injEq] at h
        obtain ⟨h1, h2⟩ := h
        subst h1 h2
        intro x hx _
        exact hsub2 x hx
      | cons k1 q1 =>
        have hk1 : k1 ≠ "" := by
          intro h; apply hq; simp [h]
        have hq1 : "" ∉ q1 := by
          intro h; apply hq; simp [h]
        simp only [Fifo_Evictor.evict, hk1, if_false] at h
        exact ih q1 k1 r ev2 hq1 hsub2 h

theorem set_outer_keys (fuel : Nat) :
    ∀ (c : Impl) (q : List key_type) (m : Nat) (ok : Bool) (ev2 : Fifo_Evictor) (c2 : Impl),
      "" ∉ q → (∀ x ∈ tkeys c.table, x ∈ q) →
      Cache.set_outer fuel c ⟨q⟩ m = some (ok, ev2, c2) →
        ∀ x ∈ tkeys c2.table, x ∈ ev2.keys := by
  induction fuel with
  | zero => intro c q m ok ev2 c2 _ _ h; simp [Cache.set_outer] at h
  | succ n ih =>
    intro c q m ok ev2 c2 hq hsub h
    unfold Cache.set_outer at h
    by_cases hgt : m > c.maxmem
    · simp only [hgt, if_true] at h
      cases q with
      | nil =>
        simp only [Fifo_Evictor.evict, if_true, Option.some.injEq, Prod.mk.injEq] at h
        obtain ⟨_, h2, h3⟩ := h
        subst h2 h3
        exact hsub
      | cons k1 q1 =>
        have hk1 : k1 ≠ "" := by
          intro h; apply hq; simp [h]
        have hq1 : "" ∉ q1 := by
          intro h; apply hq; simp [h]
        simp only [Fifo_Evictor.evict, hk1, if_false] at h
        cases hr : Cache.set_inner n c.table ⟨q1⟩ k1 with
        | none => simp [hr] at h
        | some r =>
          obtain ⟨r1, ev3⟩ := r
          have hkeys := set_inner_keys c.table n q1 k1 r1 ev3 hq1 hsub hr
          have hsuf := set_inner_suffix _ _ _ _ _ _ hr
          cases r1 with
          | none =>
            simp only [hr, Option.some.injEq, Prod.mk.injEq] at h
            obtain ⟨_, h2, h3⟩ := h
            subst h2 h3
            intro x hx
            exact hkeys x hx (by simp)
          | some k2 =>
            simp only [hr] at h
            cases hf : unordered_map.find c.table k2 with
            | none =>
              simp only [hf, Option.some.injEq, Prod.mk.injEq] at h
              obtain ⟨_, h2, h3⟩ := h
              subst h2 h3
              intro x hx
              have hk2 := (find_eq_none_iff _ _).1 hf
              exact hkeys x hx (by
                intro he
                simp only [Option.some.injEq] at he
                rw [he] at hk2
                exact hk2 hx)
            | some v =>
              simp only [hf] at h
              have hd := del_snd c k2
              obtain ⟨q3⟩ := ev3
              refine ih (Cache.del c k2).2 q3 _ ok ev2 c2
                (not_mem_of_suffix _ _ hsuf hq1) ?_ h
              intro x hx
              rw [hd] at hx
              have := (mem_tkeys_filter (fun k => decide (¬ k = k2)) c.table x).1 hx
              refine hkeys x this.1 ?_
              intro he
              simp only [Option.some.injEq] at he
              have h2 := this.2
              simp [he] at h2
    · simp only [hgt, if_false, Option.some.injEq, Prod.mk.injEq] at h
      obtain ⟨_, h2, h3⟩ := h
      subst h2 h3
      exact hsub

theorem set_evict_with_policy (c : Impl) (key : key_type) (val : val_type) (ok : Bool)
    (c2 : Impl) (q : List key_type) (hq : c.evictor = some ⟨q⟩)
    (h : Cache.set_evict c key val = some (ok, c2)) :
    ∃ ev2 c3, Cache.set_outer (q.length + 1 + 1) c ⟨q ++ [key]⟩
        (tsize c.table + val.size_) = some (ok, ev2, c3) ∧
      c2 = { c3 with evictor := some ev2 } := by
  unfold Cache.set_evict at h
  simp only [hq, Fifo_Evictor.touch_key, space_used_eq, List.length_append,
    List.length_singleton] at h
  cases hr : Cache.set_outer (q.length + 1 + 1) c ⟨q ++ [key]⟩
      (tsize c.table + val.size_) with
  | none => simp [hr] at h
  | some r =>
    obtain ⟨ok1, ev2, c3⟩ := r
    simp only [hr, Option.some.injEq, Prod.mk.injEq] at h
    obtain ⟨h1, h2⟩ := h
    subst h1 h2
    exact ⟨ev2, c3, rfl, rfl⟩

theorem set_fifo_inv (c : Impl) (key : key_type) (val : val_type) (ok : Bool) (c1 : Impl)
    (hinv : FifoInv c) (hkey : key ≠ "") (h : Cache.set c key val = some (ok, c1)) :
    FifoInv c1 ∧ (ok = true ↔ val.size_ ≤ c.maxmem) := by
  obtain ⟨q, hev, hq, hnd, hsub⟩ := hinv
  obtain ⟨c2, he, hf, ht⟩ := set_cases c key val ok c1 h
  obtain ⟨ev2, c3, ho, hc2⟩ := set_evict_with_policy c key val ok c2 q hev he
  by_cases hs : val.size_ ≤ c.maxmem
  · obtain ⟨q2, ks, g1, g2, g3, g4⟩ :=
      set_outer_success val.size_ [key] (q.length + 1 + 1) c q (by simp) hq hnd hsub hs
    rw [g1] at ho
    simp only [Option.some.injEq, Prod.mk.injEq] at ho
    obtain ⟨h1, h2, h3⟩ := ho
    subst h1 h2 h3
    refine ⟨?_, by simp [hs]⟩
    rw [ht rfl, hc2]
    refine ⟨q2 ++ [key], rfl, ?_, ?_, ?_⟩
    · intro hm
      simp only [List.mem_append, List.mem_singleton] at hm
      rcases hm with hm | hm
      · exact not_mem_of_suffix _ _ g2 hq hm
      · exact hkey hm.symm
    · simp only [tkeys, List.map_cons, List.nodup_cons]
      constructor
      · have := find_erase_self (c.table.filter (fun e => decide (e.1 ∉ ks))) key
        rw [find_eq_none_iff] at this
        exact this
      · exact nodup_tkeys_filter _ _ (nodup_tkeys_filter _ _ hnd)
    · intro x hx
      simp only [tkeys, List.map_cons, List.mem_cons] at hx
      rcases hx with hx | hx
      · simp [hx]
      · have := (mem_tkeys_filter (fun k => decide (¬ k = key)) _ x).1 hx
        simp only [List.mem_append]
        exact Or.inl (g3 x this.1)
  · obtain ⟨c1b, hsb, _, _⟩ := set_too_large c key val (by omega)
    rw [h] at hsb
    simp only [Option.some.injEq, Prod.mk.injEq] at hsb
    obtain ⟨h1, _⟩ := hsb
    subst h1
    refine ⟨?_, by simp [hs]⟩
    rw [hf rfl, hc2]
    have hq2 : "" ∉ q ++ [key] := by
      intro hm
      simp only [List.mem_append, List.mem_singleton] at hm
      rcases hm with hm | hm
      · exact hq hm
      · exact hkey hm.symm
    have hsub2 : ∀ x ∈ tkeys c.table, x ∈ q ++ [key] := by
      intro x hx
      simp only [List.mem_append]
      exact Or.inl (hsub x hx)
    have hk := set_outer_keys _ c (q ++ [key]) _ _ _ _ hq2 hsub2 ho
    obtain ⟨⟨ks, hks⟩, _, hsuf⟩ := set_outer_spec 0 _ c _ _ _ _ _ (by omega) ho
    obtain ⟨q3⟩ := ev2
    refine ⟨q3, rfl, not_mem_of_suffix _ _ hsuf hq2, ?_, hk⟩
    rw [hks]
    exact nodup_tkeys_filter _ _ hnd

theorem get_snd (c : Impl) (key : key_type) :
    (Cache.get c key).2 = { c with
      gets := c.gets + 1
      successful_gets := c.successful_gets +
        (if (unordered_map.find c.table key).isSome then 1 else 0) } := by
  unfold Cache.get
  cases hf : unordered_map.find c.table key with
  | none => simp [hf]
  | some v => simp [hf]

theorem step_fifo_inv (c c1 : Impl) (op : Op) (hinv : FifoInv c)
    (hop : op.set_key_nonempty) (h : Cache.step c op = some c1) :
    FifoInv c1 ∧ c1.maxmem = c.maxmem := by
  cases op with
  | set key val =>
    simp only [Cache.step, Option.map_eq_some'] at h
    obtain ⟨⟨ok, c2⟩, hs, h2⟩ := h
    simp only at h2
    subst h2
    exact ⟨(set_fifo_inv c key val ok c2 hinv hop hs).1, (set_frame c key val ok c2 hs).1⟩
  | get key =>
    simp only [Cache.step, Option.some.injEq] at h
    subst h
    obtain ⟨q, h1, h2, h3, h4⟩ := hinv
    rw [get_snd]
    exact ⟨⟨q, h1, h2, h3, h4⟩, rfl⟩
  | del key =>
    simp only [Cache.step, Option.some.injEq] at h
    subst h
    obtain ⟨q, h1, h2, h3, h4⟩ := hinv
    rw [del_snd]
    refine ⟨⟨q, h1, h2, nodup_tkeys_filter _ _ h3, ?_⟩, rfl⟩
    intro x hx
    exact h4 x ((mem_tkeys_filter (fun k => decide (¬ k = key)) c.table x).1 hx).1
  | reset =>
    simp only [Cache.step, Option.some.injEq] at h
    subst h
    obtain ⟨q, h1, h2, _, _⟩ := hinv
    exact ⟨⟨q, h1, h2, by simp [Cache.reset, reset_loop_eq, tkeys],
      by simp [Cache.reset, reset_loop_eq, tkeys]⟩, rfl⟩

theorem run_fifo_inv (ops : List Op) :
    ∀ c c1 : Impl, FifoInv c → (∀ op ∈ ops, op.set_key_nonempty) →
      Cache.run c ops = some c1 → FifoInv c1 ∧ c1.maxmem = c.maxmem := by
  induction ops with
  | nil =>
    intro c c1 hinv _ h
    simp only [Cache.run, Option.some.injEq] at h
    subst h
    exact ⟨hinv, rfl⟩
  | cons op rest ih =>
    intro c c1 hinv hops h
    simp only [Cache.run] at h
    cases hs : Cache.step c op with
    | none => simp [hs] at h
    | some c2 =>
      simp only [hs] at h
      obtain ⟨h1, h2⟩ := step_fifo_inv c c2 op hinv (hops op (by simp)) hs
      obtain ⟨h3, h4⟩ := ih c2 c1 h1 (fun o ho => hops o (by simp [ho])) h
      exact ⟨h3, h4.trans h2⟩

theorem new_fifo_inv (maxmem : Nat) : FifoInv (Cache.new maxmem (some ⟨[]⟩)) :=
  ⟨[], rfl, by simp, by simp [Cache.new, tkeys], by simp [Cache.new, tkeys]⟩

theorem find_of_mem_nodup (table : Table) (key : key_type) (v : val_type)
    (hn : (tkeys table).Nodup) (h : (key, v) ∈ table) :
    unordered_map.find table key = some v := by
  induction table with
  | nil => simp at h
  | cons e rest ih =>
    simp only [tkeys, List.map_cons, List.nodup_cons] at hn
    simp only [List.mem_cons] at h
    rcases h with h | h
    · subst h; simp [unordered_map.find]
    · have hne : e.1 ≠ key := by
        intro he
        apply hn.1
        rw [he]
        exact List.mem_map_of_mem Prod.fst h
      simp only [unordered_map.find, hne, if_false]
      exact ih hn.2 h

theorem tkeys_stored_entries (es : Table) : tkeys (stored_entries es) = tkeys es := by
  simp [tkeys, stored_entries, List.map_map, Function.comp_def]

theorem tsize_stored_entries (es : Table) : tsize (stored_entries es) = tsize es := by
  simp [tsize, stored_entries, List.map_map, Function.comp_def, stored]

theorem tsize_append (t1 t2 : Table) : tsize (t1 ++ t2) = tsize t1 + tsize t2 := by
  simp [tsize]

theorem tsize_reverse (t : Table) : tsize t.reverse = tsize t := by
  simp only [tsize, List.map_reverse, List.sum_reverse]

theorem tkeys_reverse (t : Table) : tkeys t.reverse = (tkeys t).reverse := by
  simp [tkeys]

theorem set_fits (c : Impl) (q : List key_type) (key : key_type) (val : val_type)
    (hev : c.evictor = some ⟨q⟩) (hfit : tsize c.table + val.size_ ≤ c.maxmem)
    (hnew : unordered_map.find c.table key = none) :
    Cache.set c key val = some (true,
      { c with evictor := some ⟨q ++ [key]⟩, table := (key, stored val) :: c.table }) := by
  have hng : ¬ (tsize c.table + val.size_ > c.maxmem) := by omega
  simp [Cache.set, Cache.set_evict, hev, Fifo_Evictor.touch_key, Cache.set_outer,
    space_used_eq, hng, hnew, unordered_map.insert, stored]

theorem run_set_ops (es : Table) :
    ∀ (c : Impl) (q : List key_type), c.evictor = some ⟨q⟩ → (tkeys es).Nodup →
      (∀ x ∈ tkeys es, unordered_map.find c.table x = none) →
      tsize c.table + tsize es ≤ c.maxmem →
      Cache.run c (set_ops es) = some { c with
        evictor := some ⟨q ++ tkeys es⟩
        table := (stored_entries es).reverse ++ c.table } := by
  induction es with
  | nil =>
    intro c q hev _ _ _
    simp [set_ops, Cache.run, tkeys, stored_entries, ← hev]
  | cons e es ih =>
    intro c q hev hnd hnew hsum
    simp only [tkeys, List.map_cons, List.nodup_cons] at hnd
    rw [tsize_cons] at hsum
    have h1 := set_fits c q e.1 e.2 hev (by omega) (hnew e.1 (by simp [tkeys]))
    simp only [set_ops, List.map_cons, Cache.run, Cache.step, h1, Option.map_some']
    have h2 := ih { c with evictor := some ⟨q ++ [e.1]⟩, table := (e.1, stored e.2) :: c.table }
      (q ++ [e.1]) rfl hnd.2
      (by
        intro x hx
        have hne : e.1 ≠ x := by
          intro he; apply hnd.1; rw [he]; exact hx
        simp only [unordered_map.find, hne, if_false]
        exact hnew x (by simp only [tkeys, List.map_cons, List.mem_cons]; exact Or.inr hx))
      (by simp only [tsize_cons, stored]; omega)
    simp only [set_ops] at h2
    rw [h2]
    simp [stored_entries, tkeys]

theorem erase_reverse_stored (e : key_type × val_type) (es : Table)
    (h : e.1 ∉ tkeys es) :
    (unordered_map.erase (stored_entries (e :: es)).reverse e.1).2 =
      (stored_entries es).reverse := by
  have hnone : unordered_map.find (stored_entries es).reverse e.1 = none := by
    rw [find_eq_none_iff, tkeys_reverse, tkeys_stored_entries]
    simpa using h
  have he := erase_of_find_none _ _ hnone
  simp only [unordered_map.erase] at he ⊢
  simp only [stored_entries, List.map_cons, List.reverse_cons, List.filter_append] at he ⊢
  rw [he]
  simp

theorem set_outer_fifo (s : Nat) (tl : List key_type) (c0 : Impl) (es : Table) :
    ∀ fuel : Nat, (tkeys es ++ tl).length < fuel → (tkeys es).Nodup → "" ∉ tkeys es →
      s ≤ c0.maxmem →
      ∃ j, j ≤ es.length ∧
        Cache.set_outer fuel { c0 with table := (stored_entries es).reverse }
            ⟨tkeys es ++ tl⟩ (tsize es + s) =
          some (true, ⟨tkeys (es.drop j) ++ tl⟩,
            { c0 with table := (stored_entries (es.drop j)).reverse }) ∧
        tsize (es.drop j) + s ≤ c0.maxmem ∧
        ∀ i, i < j → tsize (es.drop i) + s > c0.maxmem := by
  induction es with
  | nil =>
    intro fuel hlen _ _ hs
    refine ⟨0, by simp, ?_, by simp [tsize_nil]; exact hs, by intro i hi; omega⟩
    cases fuel with
    | zero => omega
    | succ n =>
      have hng : ¬ (s > c0.maxmem) := by omega
      simp [Cache.set_outer, tsize_nil, hng]
  | cons e es ih =>
    intro fuel hlen hnd hne hs
    simp only [tkeys, List.map_cons, List.nodup_cons, List.mem_cons, not_or] at hnd hne
    cases fuel with
    | zero => omega
    | succ n =>
      by_cases hgt : tsize (e :: es) + s > c0.maxmem
      · have hlen1 : (tkeys es ++ tl).length < n := by
          simp only [tkeys, List.map_cons, List.cons_append, List.length_cons] at hlen ⊢
          omega
        obtain ⟨j, hj, h1, h2, h3⟩ := ih n hlen1 hnd.2 hne.2 hs
        refine ⟨j + 1, by simp; omega, ?_, by simpa using h2, ?_⟩
        · have hfind : unordered_map.find (stored_entries (e :: es)).reverse e.1 =
              some (stored e.2) := by
            apply find_of_mem_nodup
            · rw [tkeys_reverse, tkeys_stored_entries, List.nodup_reverse]
              simp only [tkeys, List.map_cons, List.nodup_cons]
              exact hnd
            · simp [stored_entries]
          have hk : ¬ (e.1 = "") := fun h => hne.1 h.symm
          cases n with
          | zero => omega
          | succ n2 =>
            unfold Cache.set_outer
            simp only [hgt, if_true, tkeys, List.map_cons, List.cons_append,
              Fifo_Evictor.evict, hk, if_false]
            unfold Cache.set_inner
            simp only [hfind]
            have hd := del_snd { c0 with table := (stored_entries (e :: es)).reverse } e.1
            simp only [] at hd
            rw [hd, erase_reverse_stored e es hnd.1]
            have hm : tsize (e :: es) + s - (stored e.2).size_ = tsize es + s := by
              simp only [tsize_cons, stored]; omega
            rw [hm]
            simpa [tkeys] using h1
        · intro i hi
          cases i with
          | zero => simpa using hgt
          | succ i2 => simpa using h3 i2 (by omega)
      · refine ⟨0, by simp, ?_, by simp; omega, by intro i hi; omega⟩
        simp [Cache.set_outer, hgt]

/-- C4 (FIFO eviction order).  On a new FIFO cache, set the entries `es` (distinct
non-empty keys, sizes summing to at most `maxmem`) in order; all of them are then stored.
A `set` of a further new key with a value of at most `maxmem` bytes returns true and there
is a `j` such that: dropping the first `j` entries makes the value fit, dropping fewer does
not, the first `j` keys are absent afterwards, the remaining keys still hold their values,
and the new key holds its value.  The table holds nothing else and the policy's queue is
the remaining keys followed by the new key. -/
theorem C4_fifo_eviction_order (maxmem : Nat) (es : Table) (key : key_type) (val : val_type)
    (hnd : (tkeys es).Nodup) (hne : "" ∉ tkeys es) (hsum : tsize es ≤ maxmem)
    (hnew : key ∉ tkeys es) (hval : val.size_ ≤ maxmem) :
    ∃ c j c1, Cache.run (Cache.new maxmem (some ⟨[]⟩)) (set_ops es) = some c ∧
      c.table = (stored_entries es).reverse ∧
      j ≤ es.length ∧
      tsize (es.drop j) + val.size_ ≤ maxmem ∧
      (∀ i, i < j → tsize (es.drop i) + val.size_ > maxmem) ∧
      Cache.set c key val = some (true, c1) ∧
      (∀ e ∈ es.take j, unordered_map.find c1.table e.1 = none) ∧
      (∀ e ∈ es.drop j, unordered_map.find c1.table e.1 = some (stored e.2)) ∧
      unordered_map.find c1.table key = some (stored val) ∧
      c1.table = (key, stored val) :: (stored_entries (es.drop j)).reverse ∧
      c1.evictor = some ⟨tkeys (es.drop j) ++ [key]⟩ := by
  have hrun : Cache.run (Cache.new maxmem (some ⟨[]⟩)) (set_ops es) =
      some ⟨maxmem, some ⟨tkeys es⟩, 0, 0, (stored_entries es).reverse⟩ := by
    have := run_set_ops es (Cache.new maxmem (some ⟨[]⟩)) [] rfl hnd
      (by intro x _; simp [Cache.new, unordered_map.find])
      (by simp [Cache.new, tsize_nil]; exact hsum)
    simpa [Cache.new] using this
  obtain ⟨j, hj, h1, h2, h3⟩ := set_outer_fifo val.size_ [key]
    ⟨maxmem, some ⟨tkeys es⟩, 0, 0, (stored_entries es).reverse⟩ es
    ((tkeys es ++ [key]).length + 1) (by omega) hnd hne hval
  simp only [] at h1
  have hdrop_nd : (tkeys (es.drop j)).Nodup :=
    List.Nodup.sublist (List.Sublist.map Prod.fst (List.drop_sublist j es)) hnd
  have hkey_drop : key ∉ tkeys (es.drop j) := by
    intro hm
    apply hnew
    exact (List.Sublist.map Prod.fst (List.drop_sublist j es)).subset hm
  have hfk : unordered_map.find (stored_entries (List.drop j es)).reverse key = none := by
    rw [find_eq_none_iff, tkeys_reverse, tkeys_stored_entries]
    simpa using hkey_drop
  have hset : Cache.set ⟨maxmem, some ⟨tkeys es⟩, 0, 0, (stored_entries es).reverse⟩ key val =
      some (true, ⟨maxmem, some ⟨tkeys (es.drop j) ++ [key]⟩, 0, 0,
        (key, stored val) :: (stored_entries (es.drop j)).reverse⟩) := by
    simp only [Cache.set, Cache.set_evict, Fifo_Evictor.touch_key, space_used_eq,
      tsize_reverse, tsize_stored_entries, h1, hfk, unordered_map.insert, stored]
  refine ⟨_, j, _, hrun, rfl, hj, h2, h3, hset, ?_, ?_, ?_, rfl, rfl⟩
  · intro e he
    simp only []
    rw [find_eq_none_iff]
    simp only [tkeys, List.map_cons, List.mem_cons, not_or]
    have hmem : e.1 ∈ tkeys es :=
      List.mem_map_of_mem Prod.fst ((List.take_sublist j es).subset he)
    constructor
    · intro h; apply hnew; rw [← h]; exact hmem
    · intro hm
      have hm2 : e.1 ∈ tkeys (es.drop j) := by
        rw [← tkeys_stored_entries, ← List.mem_reverse, ← tkeys_reverse]
        exact hm
      have hdisj : (tkeys (es.take j) ++ tkeys (es.drop j)).Nodup := by
        simp only [tkeys, ← List.map_append, List.take_append_drop]
        exact hnd
      exact (List.nodup_append.1 hdisj).2.2 (List.mem_map_of_mem Prod.fst he) hm2
  · intro e he
    simp only []
    have hne2 : key ≠ e.1 := by
      intro h; apply hkey_drop; rw [h]; exact List.mem_map_of_mem Prod.fst he
    simp only [unordered_map.find, hne2, if_false]
    apply find_of_mem_nodup
    · rw [tkeys_reverse, tkeys_stored_entries, List.nodup_reverse]
      exact hdrop_nd
    · simp only [List.mem_reverse, stored_entries, List.mem_map]
      exact ⟨e, he, rfl⟩
  · simp [unordered_map.find]

/-- Witness for C4, the scenario of the spec: `maxmem = 256`, eight 32-byte values under
`"0"` to `"7"`, then a 32-byte value under `"8"`.  The ninth `set` returns true, evicts
exactly `"0"`, leaves `"1"` to `"8"` present, and `space_used()` is 256. -/
theorem C4_fifo_eviction_order_witness :
    ((tkeys fifo_scenario).Nodup ∧ "" ∉ tkeys fifo_scenario ∧ tsize fifo_scenario ≤ 256 ∧
      "8" ∉ tkeys fifo_scenario ∧ (bytes 32 8).size_ ≤ 256) ∧
    (∃ c j c1, Cache.run (Cache.new 256 (some ⟨[]⟩)) (set_ops fifo_scenario) = some c ∧
      c.table = (stored_entries fifo_scenario).reverse ∧
      j ≤ fifo_scenario.length ∧
      tsize (fifo_scenario.drop j) + (bytes 32 8).size_ ≤ 256 ∧
      (∀ i, i < j → tsize (fifo_scenario.drop i) + (bytes 32 8).size_ > 256) ∧
      Cache.set c "8" (bytes 32 8) = some (true, c1) ∧
      (∀ e ∈ fifo_scenario.take j, unordered_map.find c1.table e.1 = none) ∧
      (∀ e ∈ fifo_scenario.drop j, unordered_map.find c1.table e.1 = some (stored e.2)) ∧
      unordered_map.find c1.table "8" = some (stored (bytes 32 8)) ∧
      c1.table = ("8", stored (bytes 32 8)) :: (stored_entries (fifo_scenario.drop j)).reverse ∧
      c1.evictor = some ⟨tkeys (fifo_scenario.drop j) ++ ["8"]⟩) ∧
    Cache.run (Cache.new 256 (some ⟨[]⟩)) (set_ops fifo_scenario) =
      some ⟨256, some ⟨["0", "1", "2", "3", "4", "5", "6", "7"]⟩, 0, 0,
        fifo_scenario.reverse⟩ ∧
    Cache.space_used ⟨256, some ⟨["0", "1", "2", "3", "4", "5", "6", "7"]⟩, 0, 0,
        fifo_scenario.reverse⟩ = 256 ∧
    Cache.set ⟨256, some ⟨["0", "1", "2", "3", "4", "5", "6", "7"]⟩, 0, 0,
        fifo_scenario.reverse⟩ "8" (bytes 32 8) =
      some (true, ⟨256, some ⟨["1", "2", "3", "4", "5", "6", "7", "8"]⟩, 0, 0,
        ("8", bytes 32 8) :: (fifo_scenario.drop 1).reverse⟩) ∧
    unordered_map.find (("8", bytes 32 8) :: (fifo_scenario.drop 1).reverse) "0" = none ∧
    tkeys (("8", bytes 32 8) :: (fifo_scenario.drop 1).reverse) =
      ["8", "7", "6", "5", "4", "3", "2", "1"] ∧
    Cache.space_used ⟨256, some ⟨["1", "2", "3", "4", "5", "6", "7", "8"]⟩, 0, 0,
        ("8", bytes 32 8) :: (fifo_scenario.drop 1).reverse⟩ = 256 :=
  ⟨by decide,
   C4_fifo_eviction_order 256 fifo_scenario "8" (bytes 32 8)
     (by decide) (by decide) (by decide) (by decide) (by decide),
   by decide, by decide, by decide, by decide, by decide, by decide⟩

/-- C5 (stale-candidate skip).  On a new FIFO cache, distinct non-empty keys `a`, `b`, `c`
are set in that order with values that fill `maxmem` exactly, and `a` is deleted.  For a
value `vd` of at most `maxmem` bytes that does not fit beside `c` alone (so both `b` and `c`
have to go), `set(d, vd)` pops the stale candidate `a`, moves on to `b` in the inner loop
without returning false, evicts `b` and then `c`, and returns true; afterwards the table
holds exactly `d` and `space_used()` is `vd.size_`.  The key `d` is arbitrary. -/
theorem C5_stale_candidate_skip (maxmem : Nat) (a b c d : key_type)
    (va vb vc vd : val_type)
    (hab : a ≠ b) (hac : a ≠ c) (hbc : b ≠ c) (ha : a ≠ "") (hb : b ≠ "") (hc : c ≠ "")
    (hfill : va.size_ + vb.size_ + vc.size_ = maxmem)
    (hfit : vd.size_ ≤ maxmem) (hneed : vc.size_ + vd.size_ > maxmem) :
    Cache.run (Cache.new maxmem (some ⟨[]⟩)) [Op.set a va, Op.set b vb, Op.set c vc] =
      some ⟨maxmem, some ⟨[a, b, c]⟩, 0, 0,
        [(c, stored vc), (b, stored vb), (a, stored va)]⟩ ∧
    Cache.del ⟨maxmem, some ⟨[a, b, c]⟩, 0, 0,
        [(c, stored vc), (b, stored vb), (a, stored va)]⟩ a =
      (true, ⟨maxmem, some ⟨[a, b, c]⟩, 0, 0, [(c, stored vc), (b, stored vb)]⟩) ∧
    Cache.set_inner 4 [(c, stored vc), (b, stored vb)] ⟨[b, c, d]⟩ a =
      some (some b, ⟨[c, d]⟩) ∧
    Cache.set ⟨maxmem, some ⟨[a, b, c]⟩, 0, 0, [(c, stored vc), (b, stored vb)]⟩ d vd =
      some (true, ⟨maxmem, some ⟨[d]⟩, 0, 0, [(d, stored vd)]⟩) ∧
    Cache.space_used ⟨maxmem, some ⟨[d]⟩, 0, 0, [(d, stored vd)]⟩ = vd.size_ := by
  have hba : ¬ b = a := fun h => hab h.symm
  have hca : ¬ c = a := fun h => hac h.symm
  have hcb : ¬ c = b := fun h => hbc h.symm
  refine ⟨?_, ?_, ?_, ?_, ?_⟩
  · have := run_set_ops [(a, va), (b, vb), (c, vc)] (Cache.new maxmem (some ⟨[]⟩)) [] rfl
      (by simp [tkeys, hab, hac, hbc])
      (by intro x _; simp [Cache.new, unordered_map.find])
      (by simp [Cache.new, tsize]; omega)
    simpa [Cache.new, set_ops, stored_entries, tkeys] using this
  · simp [Cache.del, unordered_map.find, unordered_map.erase, hca, hba, List.filter_cons]
  · simp [Cache.set_inner, unordered_map.find, Fifo_Evictor.evict, hca, hba, hb, hcb]
  · have h1 : tsize [(c, stored vc), (b, stored vb)] + vd.size_ > maxmem := by
      simp [tsize, stored]; omega
    have h2 : tsize [(c, stored vc), (b, stored vb)] + vd.size_ - (stored vb).size_ >
        maxmem := by
      simp [tsize, stored]; omega
    have h3 : ¬ (tsize [(c, stored vc), (b, stored vb)] + vd.size_ - (stored vb).size_ -
        (stored vc).size_ > maxmem) := by
      simp [tsize, stored]; omega
    simp [Cache.set, Cache.set_evict, Cache.set_outer, Cache.set_inner, Cache.del,
      Fifo_Evictor.touch_key, Fifo_Evictor.evict, space_used_eq, unordered_map.find,
      unordered_map.erase, unordered_map.insert, List.filter_cons,
      h1, h2, h3, ha, hb, hc, hca, hba, hcb]
    rfl
  · simp [Cache.space_used, stored]

/-- Witness for C5: `maxmem = 96`, three 32-byte values under `"a"`, `"b"`, `"c"`, then
`del("a")` and `set("d", 80 bytes)`. -/
theorem C5_stale_candidate_skip_witness :
    (("a" : key_type) ≠ "b" ∧ ("a" : key_type) ≠ "c" ∧ ("b" : key_type) ≠ "c" ∧
      ("a" : key_type) ≠ "" ∧ ("b" : key_type) ≠ "" ∧ ("c" : key_type) ≠ "" ∧
      (bytes 32 1).size_ + (bytes 32 2).size_ + (bytes 32 3).size_ = 96 ∧
      (bytes 80 4).size_ ≤ 96 ∧ (bytes 32 3).size_ + (bytes 80 4).size_ > 96) ∧
    (Cache.run (Cache.new 96 (some ⟨[]⟩))
        [Op.set "a" (bytes 32 1), Op.set "b" (bytes 32 2), Op.set "c" (bytes 32 3)] =
      some ⟨96, some ⟨["a", "b", "c"]⟩, 0, 0,
        [("c", stored (bytes 32 3)), ("b", stored (bytes 32 2)),
          ("a", stored (bytes 32 1))]⟩ ∧
    Cache.del ⟨96, some ⟨["a", "b", "c"]⟩, 0, 0,
        [("c", stored (bytes 32 3)), ("b", stored (bytes 32 2)),
          ("a", stored (bytes 32 1))]⟩ "a" =
      (true, ⟨96, some ⟨["a", "b", "c"]⟩, 0, 0,
        [("c", stored (bytes 32 3)), ("b", stored (bytes 32 2))]⟩) ∧
    Cache.set_inner 4 [("c", stored (bytes 32 3)), ("b", stored (bytes 32 2))]
        ⟨["b", "c", "d"]⟩ "a" = some (some "b", ⟨["c", "d"]⟩) ∧
    Cache.set ⟨96, some ⟨["a", "b", "c"]⟩, 0, 0,
        [("c", stored (bytes 32 3)), ("b", stored (bytes 32 2))]⟩ "d" (bytes 80 4) =
      some (true, ⟨96, some ⟨["d"]⟩, 0, 0, [("d", stored (bytes 80 4))]⟩) ∧
    Cache.space_used ⟨96, some ⟨["d"]⟩, 0, 0, [("d", stored (bytes 80 4))]⟩ =
      (bytes 80 4).size_) :=
  ⟨by decide,
   C5_stale_candidate_skip 96 "a" "b" "c" "d" (bytes 32 1) (bytes 32 2) (bytes 32 3)
     (bytes 80 4) (by decide) (by decide) (by decide) (by decide) (by decide) (by decide)
     (by decide) (by decide) (by decide)⟩

/-! ## Facts about `double` arithmetic -/

theorem round_half_even_le (n d : Nat) : round_half_even n d ≤ n / d + 1 := by
  unfold round_half_even
  simp only []
  split
  · omega
  · split
    · omega
    · split <;> omega

theorem div_le_round_half_even (n d : Nat) : n / d ≤ round_half_even n d := by
  unfold round_half_even
  simp only []
  split
  · omega
  · split
    · omega
    · split <;> omega

theorem round_half_even_mono (n1 n2 d : Nat) (h : n1 ≤ n2) :
    round_half_even n1 d ≤ round_half_even n2 d := by
  have hq : n1 / d ≤ n2 / d := Nat.div_le_div_right h
  rcases Nat.lt_or_ge (n1 / d) (n2 / d) with hlt | hge
  · have h1 := round_half_even_le n1 d
    have h2 := div_le_round_half_even n2 d
    omega
  · have heq : n1 / d = n2 / d := le_antisymm hq hge
    have hr : n1 % d ≤ n2 % d := by
      have e1 := Nat.div_add_mod n1 d
      have e2 := Nat.div_add_mod n2 d
      rw [heq] at e1
      omega
    unfold round_half_even
    simp only [heq]
    split_ifs <;> omega

theorem round_half_even_mul (q d : Nat) (hd : 0 < d) : round_half_even (q * d) d = q := by
  unfold round_half_even
  simp [Nat.mul_div_cancel _ hd, hd]

theorem to_double_small (n : Nat) (h : n < 2 ^ 53) : to_double n = n := by
  unfold to_double
  rw [if_pos h]

theorem to_double_large_ge (n : Nat) (h : ¬ n < 2 ^ 53) : 2 ^ 53 ≤ to_double n := by
  have hn : n ≠ 0 := by
    intro h0; apply h; rw [h0]; exact Nat.pos_pow_of_pos 53 (by decide)
  have hl : 53 ≤ Nat.log2 n := (Nat.le_log2 hn).2 (by omega)
  simp only [to_double, h, if_false]
  have hpow : 2 ^ Nat.log2 n ≤ n := Nat.log2_self_le hn
  have hsplit : 2 ^ Nat.log2 n = 2 ^ 52 * 2 ^ (Nat.log2 n - 52) := by
    rw [← Nat.pow_add]; congr 1; omega
  have hq : 2 ^ 52 ≤ n / 2 ^ (Nat.log2 n - 52) := by
    rw [Nat.le_div_iff_mul_le (Nat.pos_pow_of_pos _ (by decide))]
    omega
  have hm := div_le_round_half_even n (2 ^ (Nat.log2 n - 52))
  have he : 2 ^ 1 ≤ 2 ^ (Nat.log2 n - 52) := Nat.pow_le_pow_right (by decide) (by omega)
  calc 2 ^ 53 = 2 ^ 52 * 2 ^ 1 := by norm_num
    _ ≤ round_half_even n (2 ^ (Nat.log2 n - 52)) * 2 ^ (Nat.log2 n - 52) :=
        Nat.mul_le_mul (le_trans hq hm) he

theorem to_double_large_le (n : Nat) (h : ¬ n < 2 ^ 53) :
    to_double n ≤ 2 ^ 53 * 2 ^ (Nat.log2 n - 52) := by
  simp only [to_double, h, if_false]
  apply Nat.mul_le_mul_right
  have hlt : n < 2 ^ (Nat.log2 n + 1) := Nat.lt_log2_self
  have hn : n ≠ 0 := by
    intro h0; apply h; rw [h0]; exact Nat.pos_pow_of_pos 53 (by decide)
  have hl : 53 ≤ Nat.log2 n := (Nat.le_log2 hn).2 (by omega)
  have hsplit : 2 ^ (Nat.log2 n + 1) = 2 ^ 53 * 2 ^ (Nat.log2 n - 52) := by
    rw [← Nat.pow_add]; congr 1; omega
  have hq : n / 2 ^ (Nat.log2 n - 52) < 2 ^ 53 := by
    rw [Nat.div_lt_iff_lt_mul (Nat.pos_pow_of_pos _ (by decide))]
    omega
  have := round_half_even_le n (2 ^ (Nat.log2 n - 52))
  omega

theorem log2_mono (a b : Nat) (ha : a ≠ 0) (h : a ≤ b) : Nat.log2 a ≤ Nat.log2 b := by
  have hb : b ≠ 0 := by omega
  rw [Nat.le_log2 hb]
  exact le_trans (Nat.log2_self_le ha) h

theorem to_double_mono (h g : Nat) (hle : h ≤ g) : to_double h ≤ to_double g := by
  by_cases hh : h < 2 ^ 53
  · by_cases hg : g < 2 ^ 53
    · rw [to_double_small h hh, to_double_small g hg]; exact hle
    · rw [to_double_small h hh]
      have := to_double_large_ge g hg
      omega
  · have hg : ¬ g < 2 ^ 53 := by omega
    have hh0 : h ≠ 0 := by
      intro h0; apply hh; rw [h0]; exact Nat.pos_pow_of_pos 53 (by decide)
    have hl := log2_mono h g hh0 hle
    rcases Nat.lt_or_ge (Nat.log2 h) (Nat.log2 g) with hlt | hge
    · have h1 := to_double_large_le h hh
      have hlh : 53 ≤ Nat.log2 h := (Nat.le_log2 hh0).2 (by omega)
      have hg0 : g ≠ 0 := by omega
      have hpow : 2 ^ Nat.log2 g ≤ g := Nat.log2_self_le hg0
      have hsplit : 2 ^ Nat.log2 g = 2 ^ 52 * 2 ^ (Nat.log2 g - 52) := by
        rw [← Nat.pow_add]; congr 1; omega
      have hq : 2 ^ 52 ≤ g / 2 ^ (Nat.log2 g - 52) := by
        rw [Nat.le_div_iff_mul_le (Nat.pos_pow_of_pos _ (by decide))]
        omega
      have hm := div_le_round_half_even g (2 ^ (Nat.log2 g - 52))
      have h2 : 2 ^ 52 * 2 ^ (Nat.log2 g - 52) ≤ to_double g := by
        simp only [to_double, hg, if_false]
        exact Nat.mul_le_mul_right _ (le_trans hq hm)
      have h3 : 2 ^ 53 * 2 ^ (Nat.log2 h - 52) ≤ 2 ^ 52 * 2 ^ (Nat.log2 g - 52) := by
        rw [← Nat.pow_add, ← Nat.pow_add]
        exact Nat.pow_le_pow_right (by decide) (by omega)
      omega
    · have heq : Nat.log2 h = Nat.log2 g := le_antisymm hl hge
      simp only [to_double, hh, hg, if_false, heq]
      exact Nat.mul_le_mul_right _
        (round_half_even_mono h g _ hle)

theorem to_double_zero : to_double 0 = 0 := by
  simp [to_double]

theorem to_double_pos (n : Nat) (h : 0 < n) : 0 < to_double n := by
  have h1 : to_double 1 = 1 := by simp [to_double]
  have := to_double_mono 1 n h
  omega

theorem double_div_nonneg (a b : Nat) : 0 ≤ double_div a b := by
  unfold double_div
  split
  · exact le_refl _
  · positivity

theorem double_div_self (a : Nat) (ha : 0 < a) : double_div a a = 1 := by
  have ha0 : ¬ a = 0 := by omega
  unfold double_div
  simp only [ha0, if_false, le_refl, if_true, Nat.add_zero]
  have h1 : 52 + Nat.log2 a - Nat.log2 a = 52 := by omega
  have h2 : Nat.log2 a - (52 + Nat.log2 a) = 0 := by omega
  rw [h1, h2, pow_zero, Nat.mul_one, Nat.mul_comm a (2 ^ 52), round_half_even_mul _ _ ha]
  norm_num

theorem double_div_le_one (a b : Nat) (hab : a ≤ b) (hb : 0 < b) : double_div a b ≤ 1 := by
  by_cases ha : a = 0
  · simp [double_div, ha]
  rcases Nat.lt_or_ge a b with hlt | hge
  · have hb0 : b ≠ 0 := by omega
    have hl := log2_mono a b ha hab
    have ha1 : 2 ^ Nat.log2 a ≤ a := Nat.log2_self_le ha
    have ha2 : a < 2 ^ (Nat.log2 a + 1) := Nat.lt_log2_self
    have hb1 : 2 ^ Nat.log2 b ≤ b := Nat.log2_self_le hb0
    have hb2 : b < 2 ^ (Nat.log2 b + 1) := Nat.lt_log2_self
    unfold double_div
    simp only [ha, if_false]
    generalize hc : (if b * 2 ^ Nat.log2 a ≤ a * 2 ^ Nat.log2 b then 0 else 1) = c
    have hc53 : 53 + Nat.log2 a ≤ 52 + Nat.log2 b + c := by
      rcases Nat.lt_or_ge (Nat.log2 a) (Nat.log2 b) with h1 | h1
      · omega
      · have heq : Nat.log2 a = Nat.log2 b := le_antisymm hl h1
        have hnot : ¬ (b * 2 ^ Nat.log2 a ≤ a * 2 ^ Nat.log2 b) := by
          rw [heq]
          intro hle
          have := Nat.le_of_mul_le_mul_right hle (Nat.pos_pow_of_pos _ (by decide))
          omega
        simp only [hnot, if_false] at hc
        omega
    have hdown : Nat.log2 a - (52 + Nat.log2 b + c) = 0 := by omega
    rw [hdown, pow_zero, Nat.mul_one]
    have hscaled : a * 2 ^ (52 + Nat.log2 b + c - Nat.log2 a) < b * 2 ^ 53 := by
      by_cases htest : b * 2 ^ Nat.log2 a ≤ a * 2 ^ Nat.log2 b
      · simp only [htest, if_true] at hc
        subst hc
        have e1 : 2 ^ (Nat.log2 a + 1) * 2 ^ (52 + Nat.log2 b + 0 - Nat.log2 a) =
            2 ^ Nat.log2 b * 2 ^ 53 := by
          rw [← Nat.pow_add, ← Nat.pow_add]; congr 1; omega
        calc a * 2 ^ (52 + Nat.log2 b + 0 - Nat.log2 a)
            < 2 ^ (Nat.log2 a + 1) * 2 ^ (52 + Nat.log2 b + 0 - Nat.log2 a) :=
              Nat.mul_lt_mul_of_pos_right ha2 (Nat.pos_pow_of_pos _ (by decide))
          _ = 2 ^ Nat.log2 b * 2 ^ 53 := e1
          _ ≤ b * 2 ^ 53 := Nat.mul_le_mul_right _ hb1
      · simp only [htest, if_false] at hc
        subst hc
        have hlt2 : a * 2 ^ Nat.log2 b < b * 2 ^ Nat.log2 a := by omega
        have e1 : 2 ^ (52 + Nat.log2 b + 1 - Nat.log2 a) * 2 ^ Nat.log2 a =
            2 ^ Nat.log2 b * 2 ^ 53 := by
          rw [← Nat.pow_add, ← Nat.pow_add]; congr 1; omega
        have hpos : 0 < 2 ^ Nat.log2 a := Nat.pos_pow_of_pos _ (by decide)
        apply Nat.lt_of_mul_lt_mul_right (a := 2 ^ Nat.log2 a)
        calc a * 2 ^ (52 + Nat.log2 b + 1 - Nat.log2 a) * 2 ^ Nat.log2 a
            = a * (2 ^ Nat.log2 b * 2 ^ 53) := by rw [Nat.mul_assoc, e1]
          _ = a * 2 ^ Nat.log2 b * 2 ^ 53 := by rw [Nat.mul_assoc]
          _ < b * 2 ^ Nat.log2 a * 2 ^ 53 :=
              Nat.mul_lt_mul_of_pos_right hlt2 (Nat.pos_pow_of_pos _ (by decide))
          _ = b * 2 ^ 53 * 2 ^ Nat.log2 a := by
              rw [Nat.mul_assoc, Nat.mul_comm (2 ^ Nat.log2 a), ← Nat.mul_assoc]
    have hq : a * 2 ^ (52 + Nat.log2 b + c - Nat.log2 a) / b < 2 ^ 53 := by
      rw [Nat.div_lt_iff_lt_mul hb]
      rw [Nat.mul_comm (2 ^ 53) b]
      exact hscaled
    have hm := round_half_even_le (a * 2 ^ (52 + Nat.log2 b + c - Nat.log2 a)) b
    have hm53 : round_half_even (a * 2 ^ (52 + Nat.log2 b + c - Nat.log2 a)) b ≤ 2 ^ 53 := by
      omega
    have hpow : (2 : ℚ) ^ 53 ≤ 2 ^ (52 + Nat.log2 b + c - Nat.log2 a) :=
      pow_le_pow_right₀ (by norm_num) (by omega)
    have hmq : (round_half_even (a * 2 ^ (52 + Nat.log2 b + c - Nat.log2 a)) b : ℚ) ≤
        2 ^ 53 := by exact_mod_cast hm53
    rw [pow_zero, mul_one, div_le_one (by positivity)]
    exact le_trans hmq hpow
  · have : a = b := le_antisymm hab hge
    subst this
    rw [double_div_self a hb]

theorem round_half_even_error (n d : Nat) (hd : 0 < d) :
    2 * (round_half_even n d * d) ≤ 2 * n + d ∧ 2 * n ≤ 2 * (round_half_even n d * d) + d := by
  have hdm := Nat.div_add_mod n d
  have hr : n % d < d := Nat.mod_lt n hd
  have hcomm : n / d * d = d * (n / d) := Nat.mul_comm _ _
  have hsucc : (n / d + 1) * d = d * (n / d) + d := by rw [Nat.add_mul, Nat.one_mul, hcomm]
  unfold round_half_even
  simp only []
  generalize d * (n / d) = Q at hdm hcomm hsucc
  split_ifs
  · rw [hcomm]; omega
  · rw [hsucc]; omega
  · rw [hcomm]; omega
  · rw [hsucc]; omega

theorem double_div_scaled_lower (a b c : Nat)
    (hc : b * 2 ^ Nat.log2 a * 2 ^ 52 ≤ a * 2 ^ (52 + Nat.log2 b + c)) :
    2 ^ 52 * (b * 2 ^ (Nat.log2 a - (52 + Nat.log2 b + c))) ≤
      a * 2 ^ (52 + Nat.log2 b + c - Nat.log2 a) := by
  rcases Nat.le_total (Nat.log2 a) (52 + Nat.log2 b + c) with h | h
  · have hdown : Nat.log2 a - (52 + Nat.log2 b + c) = 0 := by omega
    rw [hdown, pow_zero, Nat.mul_one]
    apply Nat.le_of_mul_le_mul_right (c := 2 ^ Nat.log2 a) _ (Nat.pos_pow_of_pos _ (by decide))
    have e : 2 ^ (52 + Nat.log2 b + c - Nat.log2 a) * 2 ^ Nat.log2 a =
        2 ^ (52 + Nat.log2 b + c) := by
      rw [← Nat.pow_add]; congr 1; omega
    calc 2 ^ 52 * b * 2 ^ Nat.log2 a = b * 2 ^ Nat.log2 a * 2 ^ 52 := by ring
      _ ≤ a * 2 ^ (52 + Nat.log2 b + c) := hc
      _ = a * 2 ^ (52 + Nat.log2 b + c - Nat.log2 a) * 2 ^ Nat.log2 a := by
          rw [Nat.mul_assoc, e]
  · have hup : 52 + Nat.log2 b + c - Nat.log2 a = 0 := by omega
    rw [hup, pow_zero, Nat.mul_one]
    apply Nat.le_of_mul_le_mul_right (c := 2 ^ (52 + Nat.log2 b + c)) _
      (Nat.pos_pow_of_pos _ (by decide))
    have e : 2 ^ (Nat.log2 a - (52 + Nat.log2 b + c)) * 2 ^ (52 + Nat.log2 b + c) =
        2 ^ Nat.log2 a := by
      rw [← Nat.pow_add]; congr 1; omega
    calc 2 ^ 52 * (b * 2 ^ (Nat.log2 a - (52 + Nat.log2 b + c))) * 2 ^ (52 + Nat.log2 b + c)
        = b * (2 ^ (Nat.log2 a - (52 + Nat.log2 b + c)) * 2 ^ (52 + Nat.log2 b + c)) *
            2 ^ 52 := by ring
      _ = b * 2 ^ Nat.log2 a * 2 ^ 52 := by rw [e]
      _ ≤ a * 2 ^ (52 + Nat.log2 b + c) := hc

theorem double_div_core (a b : Nat) (ha : a ≠ 0) :
    b * 2 ^ Nat.log2 a * 2 ^ 52 ≤
      a * 2 ^ (52 + Nat.log2 b +
        (if b * 2 ^ Nat.log2 a ≤ a * 2 ^ Nat.log2 b then 0 else 1)) := by
  have ha1 : 2 ^ Nat.log2 a ≤ a := Nat.log2_self_le ha
  have hb2 : b < 2 ^ (Nat.log2 b + 1) := Nat.lt_log2_self
  by_cases htest : b * 2 ^ Nat.log2 a ≤ a * 2 ^ Nat.log2 b
  · simp only [htest, if_true, Nat.add_zero]
    calc b * 2 ^ Nat.log2 a * 2 ^ 52 ≤ a * 2 ^ Nat.log2 b * 2 ^ 52 :=
          Nat.mul_le_mul_right _ htest
      _ = a * 2 ^ (52 + Nat.log2 b) := by rw [Nat.pow_add]; ring
  · simp only [htest, if_false]
    calc b * 2 ^ Nat.log2 a * 2 ^ 52 ≤ 2 ^ (Nat.log2 b + 1) * a * 2 ^ 52 :=
          Nat.mul_le_mul_right _ (Nat.mul_le_mul (Nat.le_of_lt hb2) ha1)
      _ = a * 2 ^ (52 + Nat.log2 b + 1) := by
          rw [Nat.pow_add 2 (52 + Nat.log2 b) 1, Nat.pow_add 2 52, Nat.pow_add 2 (Nat.log2 b) 1]
          ring

theorem double_div_error (a b : Nat) (hb : 0 < b) :
    |double_div a b - (a : ℚ) / (b : ℚ)| ≤ (a : ℚ) / (b : ℚ) / 2 ^ 53 := by
  by_cases ha : a = 0
  · simp [double_div, ha]
  unfold double_div
  simp only [ha, if_false]
  generalize hc : (if b * 2 ^ Nat.log2 a ≤ a * 2 ^ Nat.log2 b then 0 else 1) = c
  have hcore := double_div_core a b ha
  rw [hc] at hcore
  have hlow := double_div_scaled_lower a b c hcore
  generalize hup : 52 + Nat.log2 b + c - Nat.log2 a = up at hlow ⊢
  generalize hdown : Nat.log2 a - (52 + Nat.log2 b + c) = down at hlow ⊢
  have hd : 0 < b * 2 ^ down := Nat.mul_pos hb (Nat.pos_pow_of_pos _ (by decide))
  obtain ⟨e1, e2⟩ := round_half_even_error (a * 2 ^ up) (b * 2 ^ down) hd
  generalize round_half_even (a * 2 ^ up) (b * 2 ^ down) = m at e1 e2 ⊢
  have hbq : (0 : ℚ) < (b : ℚ) := by exact_mod_cast hb
  have hU : (0 : ℚ) < (2 : ℚ) ^ up := by positivity
  have hD : (0 : ℚ) < (2 : ℚ) ^ down := by positivity
  have q1 : (2 : ℚ) * ((m : ℚ) * ((b : ℚ) * 2 ^ down)) ≤
      2 * ((a : ℚ) * 2 ^ up) + (b : ℚ) * 2 ^ down := by exact_mod_cast e1
  have q2 : (2 : ℚ) * ((a : ℚ) * 2 ^ up) ≤
      2 * ((m : ℚ) * ((b : ℚ) * 2 ^ down)) + (b : ℚ) * 2 ^ down := by exact_mod_cast e2
  have q3 : (2 : ℚ) ^ 52 * ((b : ℚ) * 2 ^ down) ≤ (a : ℚ) * 2 ^ up := by exact_mod_cast hlow
  have hx : (a : ℚ) = (a : ℚ) / (b : ℚ) * (b : ℚ) := by field_simp
  generalize (a : ℚ) / (b : ℚ) = x at hx ⊢
  rw [hx] at q1 q2 q3
  have r1 : 2 * ((m : ℚ) * 2 ^ down) ≤ 2 * (x * 2 ^ up) + 2 ^ down := by
    have : (b : ℚ) * (2 * ((m : ℚ) * 2 ^ down)) ≤ (b : ℚ) * (2 * (x * 2 ^ up) + 2 ^ down) := by
      linarith
    exact le_of_mul_le_mul_left this hbq
  have r2 : 2 * (x * 2 ^ up) ≤ 2 * ((m : ℚ) * 2 ^ down) + 2 ^ down := by
    have : (b : ℚ) * (2 * (x * 2 ^ up)) ≤ (b : ℚ) * (2 * ((m : ℚ) * 2 ^ down) + 2 ^ down) := by
      linarith
    exact le_of_mul_le_mul_left this hbq
  have r3 : (2 : ℚ) ^ 52 * 2 ^ down ≤ x * 2 ^ up := by
    have : (b : ℚ) * ((2 : ℚ) ^ 52 * 2 ^ down) ≤ (b : ℚ) * (x * 2 ^ up) := by linarith
    exact le_of_mul_le_mul_left this hbq
  have hv : (m : ℚ) * 2 ^ down / 2 ^ up - x = ((m : ℚ) * 2 ^ down - x * 2 ^ up) / 2 ^ up := by
    field_simp
    ring
  have hbound : x / 2 ^ 53 = x * 2 ^ up / 2 ^ 53 / 2 ^ up := by
    field_simp
    ring
  rw [hv, hbound, abs_le]
  constructor
  · rw [← neg_div, div_le_div_iff_of_pos_right hU]
    have : x * 2 ^ up / 2 ^ 53 = x * 2 ^ up * (1 / 2 ^ 53) := by ring
    rw [this]
    nlinarith
  · rw [div_le_div_iff_of_pos_right hU]
    have : x * 2 ^ up / 2 ^ 53 = x * 2 ^ up * (1 / 2 ^ 53) := by ring
    rw [this]
    nlinarith

/-! ## Reset, statistics and the frame of `get` -/

theorem hit_rate_of_gets_zero (c : Impl) (h : c.gets = 0) : Cache.hit_rate c = 0 := by
  simp [Cache.hit_rate, h]

/-- C11 (reset clears state).  For every state, `reset()` returns true; afterwards
`space_used()` is 0, both counters are 0, `hit_rate()` is 0, the table is empty, and `get`
returns the absent marker for every key. -/
theorem C11_reset_clears_state (c : Impl) :
    (Cache.reset c).1 = true ∧
    Cache.space_used (Cache.reset c).2 = 0 ∧
    (Cache.reset c).2.gets = 0 ∧ (Cache.reset c).2.successful_gets = 0 ∧
    Cache.hit_rate (Cache.reset c).2 = 0 ∧
    (Cache.reset c).2.table = [] ∧
    ∀ key, (Cache.get (Cache.reset c).2 key).1 = ⟨none, 0⟩ := by
  refine ⟨?_, ?_, ?_, ?_, ?_, ?_, ?_⟩
  · simp [Cache.reset, reset_loop_eq]
  · simp [Cache.reset, reset_loop_eq, Cache.space_used]
  · simp [Cache.reset]
  · simp [Cache.reset]
  · apply hit_rate_of_gets_zero; simp [Cache.reset]
  · simp [Cache.reset, reset_loop_eq]
  · intro key
    apply get_of_find_none
    simp [Cache.reset, reset_loop_eq, unordered_map.find]

/-- C13 (`get` is read-only apart from statistics).  For every state and key, `get` leaves
the table, the policy (its queue included) and `maxmem` unchanged, increases `gets` by one,
and increases `successful_gets` by one when the key is in the table and by zero
otherwise. -/
theorem C13_get_read_only (c : Impl) (key : key_type) :
    (Cache.get c key).2.table = c.table ∧
    (Cache.get c key).2.evictor = c.evictor ∧
    (Cache.get c key).2.maxmem = c.maxmem ∧
    (Cache.get c key).2.gets = c.gets + 1 ∧
    (Cache.get c key).2.successful_gets =
      c.successful_gets + (if (unordered_map.find c.table key).isSome then 1 else 0) := by
  rw [get_snd]
  exact ⟨rfl, rfl, rfl, rfl, rfl⟩

/-! ## The FIFO policy on its own -/

theorem touch_keys_keys (keys : List key_type) :
    ∀ e : Fifo_Evictor, (e.touch_keys keys).keys = e.keys ++ keys := by
  induction keys with
  | nil => intro e; simp [Fifo_Evictor.touch_keys]
  | cons k ks ih =>
    intro e
    simp [Fifo_Evictor.touch_keys, ih, Fifo_Evictor.touch_key]

theorem evict_times_keys (keys : List key_type) :
    Fifo_Evictor.evict_times keys.length ⟨keys⟩ = (keys, ⟨[]⟩) := by
  induction keys with
  | nil => rfl
  | cons k ks ih =>
    simp [Fifo_Evictor.evict_times, Fifo_Evictor.evict, ih]

/-- C14 (FIFO policy order).  On a policy that starts empty, after `touch_key(k1)`, ...,
`touch_key(kn)` for non-empty keys, repeats allowed, the queue is `k1, ..., kn` (repeats
are kept), `n` successive `evict()` calls return `k1, ..., kn` in that order, none of them
is the "no candidate" result `""`, and the next `evict()` returns `""` ("no candidate") and
leaves the queue empty. -/
theorem C14_fifo_policy_order (keys : List key_type) (hne : ∀ k ∈ keys, k ≠ "") :
    ((⟨[]⟩ : Fifo_Evictor).touch_keys keys).keys = keys ∧
    (((⟨[]⟩ : Fifo_Evictor).touch_keys keys).evict_times keys.length).1 = keys ∧
    (∀ k ∈ (((⟨[]⟩ : Fifo_Evictor).touch_keys keys).evict_times keys.length).1, k ≠ "") ∧
    (((⟨[]⟩ : Fifo_Evictor).touch_keys keys).evict_times keys.length).2.evict =
      ("", ⟨[]⟩) := by
  have hk : (⟨[]⟩ : Fifo_Evictor).touch_keys keys = ⟨keys⟩ := by
    have := touch_keys_keys keys ⟨[]⟩
    cases h : (⟨[]⟩ : Fifo_Evictor).touch_keys keys with
    | mk q => rw [h] at this; simp at this; rw [this]
  rw [hk, evict_times_keys]
  exact ⟨rfl, rfl, hne, rfl⟩

/-- Witness for C14: the key `"a"` is touched twice and is returned twice. -/
theorem C14_fifo_policy_order_witness :
    (∀ k ∈ (["a", "b", "a"] : List key_type), k ≠ "") ∧
    ((⟨[]⟩ : Fifo_Evictor).touch_keys ["a", "b", "a"]).keys = ["a", "b", "a"] ∧
    (((⟨[]⟩ : Fifo_Evictor).touch_keys ["a", "b", "a"]).evict_times
      (["a", "b", "a"] : List key_type).length).1 = ["a", "b", "a"] ∧
    (∀ k ∈ (((⟨[]⟩ : Fifo_Evictor).touch_keys ["a", "b", "a"]).evict_times
      (["a", "b", "a"] : List key_type).length).1, k ≠ "") ∧
    (((⟨[]⟩ : Fifo_Evictor).touch_keys ["a", "b", "a"]).evict_times
      (["a", "b", "a"] : List key_type).length).2.evict = ("", ⟨[]⟩) :=
  ⟨by decide, C14_fifo_policy_order ["a", "b", "a"] (by decide)⟩

/-! ## The frame of `set` -/

theorem find_cons_erase_ne (table : Table) (key k : key_type) (v : val_type) (h : k ≠ key) :
    unordered_map.find ((key, v) :: (unordered_map.erase table key).2) k =
      unordered_map.find table k := by
  have hne : ¬ key = k := fun e => h e.symm
  simp only [unordered_map.find, hne, if_false]
  exact find_erase_ne table key k h

/-- C15 (no policy, no eviction).  For a cache without an eviction policy, `set(key, val)`
returns, the cache still has no policy, and every other key keeps exactly the entry it
had.  Whenever `space_used() + val.size_` minus the size of an existing entry under `key`
exceeds `maxmem`, `set` returns false and the state is unchanged. -/
theorem C15_no_policy_no_eviction (c : Impl) (key : key_type) (val : val_type)
    (hev : c.evictor = none) :
    ∃ ok c1, Cache.set c key val = some (ok, c1) ∧ c1.evictor = none ∧
      (∀ k, k ≠ key → unordered_map.find c1.table k = unordered_map.find c.table k) ∧
      (Cache.space_used c + val.size_ -
          (match unordered_map.find c.table key with
            | some v => v.size_
            | none => 0) > c.maxmem →
        ok = false ∧ c1.table = c.table ∧ c1 = c) := by
  obtain ⟨⟨ok, c1⟩, hs⟩ := set_total c key val
  obtain ⟨c2, he, hf, ht⟩ := set_cases c key val ok c1 hs
  obtain ⟨_, _, _, _, _, hn, hiff⟩ := set_evict_spec c key val ok c2 he
  have hc2 := hn hev
  subst hc2
  refine ⟨ok, c1, hs, ?_, ?_, ?_⟩
  · cases ok with
    | false => rw [hf rfl]; exact hev
    | true => rw [ht rfl]; exact hev
  · intro k hk
    cases ok with
    | false => rw [hf rfl]
    | true => rw [ht rfl]; exact find_cons_erase_ne _ _ _ _ hk
  · intro hgt
    rw [space_used_eq] at hgt
    cases ok with
    | false => exact ⟨rfl, by rw [hf rfl], hf rfl⟩
    | true =>
      have := (hiff hev).1 rfl
      omega

/-- Witness for C15: a 64-byte cache without a policy that holds 40 bytes under `"a"`;
a 40-byte value under `"b"` exceeds `maxmem`, is refused, and the state is unchanged. -/
theorem C15_no_policy_no_eviction_witness :
    (Cache.space_used ⟨64, none, 0, 0, [("a", bytes 40 1)]⟩ + (bytes 40 2).size_ -
        (match unordered_map.find [("a", bytes 40 1)] "b" with
          | some v => v.size_
          | none => 0) > 64) ∧
    Cache.set ⟨64, none, 0, 0, [("a", bytes 40 1)]⟩ "b" (bytes 40 2) =
      some (false, ⟨64, none, 0, 0, [("a", bytes 40 1)]⟩) ∧
    ∃ ok c1, Cache.set ⟨64, none, 0, 0, [("a", bytes 40 1)]⟩ "b" (bytes 40 2) =
        some (ok, c1) ∧ c1.evictor = none ∧
      (∀ k, k ≠ "b" → unordered_map.find c1.table k =
        unordered_map.find [("a", bytes 40 1)] k) ∧
      (Cache.space_used ⟨64, none, 0, 0, [("a", bytes 40 1)]⟩ + (bytes 40 2).size_ -
          (match unordered_map.find [("a", bytes 40 1)] "b" with
            | some v => v.size_
            | none => 0) > 64 →
        ok = false ∧ c1.table = [("a", bytes 40 1)] ∧
          c1 = ⟨64, none, 0, 0, [("a", bytes 40 1)]⟩) :=
  ⟨by decide, by decide,
   C15_no_policy_no_eviction ⟨64, none, 0, 0, [("a", bytes 40 1)]⟩ "b" (bytes 40 2) rfl⟩

/-- C16 (`set` touches other keys only by removing them).  For every state, key and
value, `set` returns, and there is a list `ks` of evicted keys such that the table
afterwards is the table before without the entries under `ks` when `set` returns false, and
is that table with the entry under `key` replaced by the new value when `set` returns true.
So every other key is afterwards absent or holds exactly its previous value; when `set`
returns false this holds for every key (nothing is inserted or changed, evictions stay). -/
theorem C16_set_only_removes (c : Impl) (key : key_type) (val : val_type) :
    ∃ (ok : Bool) (c1 : Impl) (ks : List key_type), Cache.set c key val = some (ok, c1) ∧
      c1.table =
        (if ok then
          (key, stored val) ::
            (unordered_map.erase (c.table.filter (fun e => decide (e.1 ∉ ks))) key).2
        else c.table.filter (fun e => decide (e.1 ∉ ks))) ∧
      (∀ k, k ≠ key → unordered_map.find c1.table k = none ∨
        unordered_map.find c1.table k = unordered_map.find c.table k) ∧
      (ok = false → ∀ k, unordered_map.find c1.table k = none ∨
        unordered_map.find c1.table k = unordered_map.find c.table k) ∧
      (ok = true → unordered_map.find c1.table key = some (stored val)) := by
  obtain ⟨⟨ok, c1⟩, hs⟩ := set_total c key val
  obtain ⟨c2, he, hf, ht⟩ := set_cases c key val ok c1 hs
  obtain ⟨⟨ks, hks⟩, _⟩ := set_evict_spec c key val ok c2 he
  have hfilt : ∀ k, unordered_map.find (c.table.filter (fun e => decide (e.1 ∉ ks))) k = none ∨
      unordered_map.find (c.table.filter (fun e => decide (e.1 ∉ ks))) k =
        unordered_map.find c.table k := by
    intro k
    rw [find_filter (fun k => decide (k ∉ ks))]
    by_cases hk : k ∈ ks <;> simp [hk]
  refine ⟨ok, c1, ks, hs, ?_, ?_, ?_, ?_⟩
  · cases ok with
    | false => rw [hf rfl, hks]; rfl
    | true => rw [ht rfl, hks]; rfl
  · intro k hk
    cases ok with
    | false => rw [hf rfl, hks]; exact hfilt k
    | true =>
      rw [ht rfl]
      simp only []
      rw [find_cons_erase_ne _ _ _ _ hk, hks]
      exact hfilt k
  · intro hok k
    rw [hf hok, hks]
    exact hfilt k
  · intro hok
    subst hok
    exact set_true_find c key val c1 hs

theorem set_evict_fits (c : Impl) (key : key_type) (val : val_type)
    (hfit : tsize c.table + val.size_ ≤ c.maxmem) :
    Cache.set_evict c key val =
      some (true, { c with evictor := c.evictor.map (fun e => e.touch_key key) }) := by
  have hng : ¬ (tsize c.table + val.size_ > c.maxmem) := by omega
  obtain ⟨m, ev, sg, g, t⟩ := c
  cases ev with
  | none => simp [Cache.set_evict, space_used_eq, hng]
  | some e =>
    simp only [] at hng
    simp [Cache.set_evict, Cache.set_outer, space_used_eq, hng]

/-- C17 (no eviction when the value fits).  For every state whose table has distinct keys,
if `space_used() + val.size_ <= maxmem` then `set(key, val)` returns true; the policy, if
there is one, only gains `key` at the back of its queue (no candidate is popped); every
other key keeps exactly the entry it had; `key` holds the new value; and `space_used()`
afterwards is the previous `space_used()` minus the size of the entry previously under
`key` (if any) plus `val.size_`. -/
theorem C17_no_eviction_when_fits (c : Impl) (key : key_type) (val : val_type)
    (hnd : (tkeys c.table).Nodup) (hfit : Cache.space_used c + val.size_ ≤ c.maxmem) :
    ∃ c1, Cache.set c key val = some (true, c1) ∧
      c1.evictor = c.evictor.map (fun e => ⟨e.keys ++ [key]⟩) ∧
      (∀ k, k ≠ key → unordered_map.find c1.table k = unordered_map.find c.table k) ∧
      unordered_map.find c1.table key = some (stored val) ∧
      Cache.space_used c1 =
        Cache.space_used c -
          (match unordered_map.find c.table key with
            | some v => v.size_
            | none => 0) + val.size_ := by
  rw [space_used_eq] at hfit
  obtain ⟨⟨ok, c1⟩, hs⟩ := set_total c key val
  obtain ⟨c2, he, _, ht⟩ := set_cases c key val ok c1 hs
  rw [set_evict_fits c key val hfit] at he
  simp only [Option.some.injEq, Prod.mk.injEq] at he
  obtain ⟨hok, hc2⟩ := he
  subst hok
  have hc1 := ht rfl
  rw [← hc2] at hc1
  simp only [] at hc1
  refine ⟨c1, hs, ?_, ?_, ?_, ?_⟩
  · rw [hc1]; rfl
  · intro k hk
    rw [hc1]
    exact find_cons_erase_ne _ _ _ _ hk
  · exact set_true_find c key val c1 hs
  · rw [space_used_eq, space_used_eq, hc1]
    simp only [tsize_cons, stored]
    cases hf : unordered_map.find c.table key with
    | none =>
      rw [erase_of_find_none _ _ hf]
      simp only []
      omega
    | some v =>
      have := tsize_erase_eq c.table key v hnd hf
      simp only []
      omega

/-- Witness for C17: a 64-byte FIFO cache that holds 16 bytes under `"a"` and 16 bytes
under `"b"`; the value under `"a"` is replaced by a 24-byte value. -/
theorem C17_no_eviction_when_fits_witness :
    ((tkeys [("b", bytes 16 2), ("a", bytes 16 1)]).Nodup ∧
      Cache.space_used ⟨64, some ⟨["a", "b"]⟩, 0, 0, [("b", bytes 16 2), ("a", bytes 16 1)]⟩ +
        (bytes 24 3).size_ ≤ 64) ∧
    ∃ c1, Cache.set ⟨64, some ⟨["a", "b"]⟩, 0, 0, [("b", bytes 16 2), ("a", bytes 16 1)]⟩
        "a" (bytes 24 3) = some (true, c1) ∧
      c1.evictor = (some ⟨["a", "b"]⟩ : Option Fifo_Evictor).map
        (fun e => ⟨e.keys ++ ["a"]⟩) ∧
      (∀ k, k ≠ "a" → unordered_map.find c1.table k =
        unordered_map.find [("b", bytes 16 2), ("a", bytes 16 1)] k) ∧
      unordered_map.find c1.table "a" = some (stored (bytes 24 3)) ∧
      Cache.space_used c1 =
        Cache.space_used ⟨64, some ⟨["a", "b"]⟩, 0, 0,
            [("b", bytes 16 2), ("a", bytes 16 1)]⟩ -
          (match unordered_map.find [("b", bytes 16 2), ("a", bytes 16 1)] "a" with
            | some v => v.size_
            | none => 0) + (bytes 24 3).size_ :=
  ⟨by decide,
   C17_no_eviction_when_fits
     ⟨64, some ⟨["a", "b"]⟩, 0, 0, [("b", bytes 16 2), ("a", bytes 16 1)]⟩ "a" (bytes 24 3)
     (by decide) (by decide)⟩

/-! ## The counters along a sequence of calls -/

theorem get_data_isSome (c : Impl) (key : key_type) :
    (Cache.get c key).1.data_.isSome = (unordered_map.find c.table key).isSome := by
  cases hf : unordered_map.find c.table key with
  | none => simp [Cache.get, hf]
  | some v => simp [Cache.get, hf]

theorem del_counters (c : Impl) (key : key_type) :
    (Cache.del c key).2.gets = c.gets ∧
    (Cache.del c key).2.successful_gets = c.successful_gets := by
  rw [del_snd]
  exact ⟨rfl, rfl⟩

theorem run_counters (ops : List Op) :
    ∀ c c1 : Impl, Op.reset ∉ ops → Cache.run c ops = some c1 →
      c1.gets = c.gets + count_gets ops ∧
      c1.successful_gets = c.successful_gets + count_hits c ops := by
  induction ops with
  | nil =>
    intro c c1 _ h
    simp only [Cache.run, Option.some.injEq] at h
    subst h
    simp [count_gets, count_hits]
  | cons op rest ih =>
    intro c c1 hnr h
    simp only [List.mem_cons, not_or] at hnr
    simp only [Cache.run] at h
    cases hs : Cache.step c op with
    | none => simp [hs] at h
    | some c2 =>
      simp only [hs] at h
      obtain ⟨h1, h2⟩ := ih c2 c1 hnr.2 h
      cases op with
      | set key val =>
        simp only [Cache.step, Option.map_eq_some'] at hs
        obtain ⟨⟨ok, c3⟩, hset, h3⟩ := hs
        simp only at h3
        subst h3
        have hfr := set_frame c key val ok c3 hset
        have hstep : Cache.step c (Op.set key val) = some c3 := by
          simp [Cache.step, hset]
        simp only [count_gets, count_hits, hstep]
        omega
      | get key =>
        have hstep := hs
        simp only [Cache.step, Option.some.injEq] at hs
        subst hs
        rw [get_snd] at h1 h2
        simp only [] at h1 h2
        simp only [count_gets, count_hits, hstep, get_data_isSome]
        rw [get_snd]
        omega
      | del key =>
        have hstep := hs
        simp only [Cache.step, Option.some.injEq] at hs
        subst hs
        have hd := del_counters c key
        simp only [count_gets, count_hits, hstep]
        omega
      | reset => exact absurd rfl hnr.1

theorem step_counters_le (c c1 : Impl) (op : Op) (h : Cache.step c op = some c1)
    (hle : c.successful_gets ≤ c.gets) : c1.successful_gets ≤ c1.gets := by
  cases op with
  | set key val =>
    simp only [Cache.step, Option.map_eq_some'] at h
    obtain ⟨⟨ok, c2⟩, hs, h2⟩ := h
    simp only at h2
    subst h2
    have hfr := set_frame c key val ok c2 hs
    omega
  | get key =>
    simp only [Cache.step, Option.some.injEq] at h
    subst h
    rw [get_snd]
    simp only []
    split <;> omega
  | del key =>
    simp only [Cache.step, Option.some.injEq] at h
    subst h
    have := del_counters c key
    omega
  | reset =>
    simp only [Cache.step, Option.some.injEq] at h
    subst h
    simp [Cache.reset]

theorem run_counters_le (ops : List Op) :
    ∀ c c1 : Impl, Cache.run c ops = some c1 → c.successful_gets ≤ c.gets →
      c1.successful_gets ≤ c1.gets := by
  induction ops with
  | nil =>
    intro c c1 h hle
    simp only [Cache.run, Option.some.injEq] at h
    subst h
    exact hle
  | cons op rest ih =>
    intro c c1 h hle
    simp only [Cache.run] at h
    cases hs : Cache.step c op with
    | none => simp [hs] at h
    | some c2 =>
      simp only [hs] at h
      exact ih c2 c1 h (step_counters_le c c2 op hs hle)

theorem hit_rate_bounds (c : Impl) (hle : c.successful_gets ≤ c.gets) :
    0 ≤ Cache.hit_rate c ∧ Cache.hit_rate c ≤ 1 := by
  unfold Cache.hit_rate
  by_cases hg : c.gets = 0
  · simp [hg]
  · simp only [hg, if_false]
    exact ⟨double_div_nonneg _ _,
      double_div_le_one _ _ (to_double_mono _ _ hle)
        (to_double_pos _ (Nat.pos_of_ne_zero hg))⟩

/-- C18 (statistics stay a valid ratio).  From a newly constructed cache, with any policy
or none, every sequence of `set`, `get`, `del` and `reset` calls runs to completion and
ends in a state with `successful_gets <= gets`, where the `double` returned by
`hit_rate()` lies between 0 and 1. -/
theorem C18_hit_rate_in_unit_interval (maxmem : Nat) (evictor : Option Fifo_Evictor)
    (ops : List Op) :
    ∃ c, Cache.run (Cache.new maxmem evictor) ops = some c ∧
      c.successful_gets ≤ c.gets ∧ 0 ≤ Cache.hit_rate c ∧ Cache.hit_rate c ≤ 1 := by
  obtain ⟨c, hc⟩ := run_total ops (Cache.new maxmem evictor)
  have hle := run_counters_le ops _ c hc (by simp [Cache.new])
  exact ⟨c, hc, hle, hit_rate_bounds c hle⟩

/-! ## The hit rate after a sequence of calls -/

theorem hit_rate_one_third :
    Cache.hit_rate ⟨64, some ⟨["a"]⟩, 1, 3, []⟩ = 6004799503160661 / 18014398509481984 := by
  simp [Cache.hit_rate, to_double, double_div, round_half_even, Nat.log2]
  norm_num

/-- C12, as stated, fails: on a new 64-byte FIFO cache the calls `set("a")`, `get("a")`,
`get("b")`, `del("a")`, `get("a")` contain three `get` calls of which one finds its key,
and `hit_rate()` then returns the `double` `6004799503160661 / 2 ^ 54`
(`0x1.5555555555555p-2`), which is not the exact ratio `1 / 3`. -/
theorem C12_counterexample :
    Cache.run (Cache.new 64 (some ⟨[]⟩)) hit_rate_scenario =
      some ⟨64, some ⟨["a"]⟩, 1, 3, []⟩ ∧
    count_gets hit_rate_scenario = 3 ∧
    count_hits (Cache.new 64 (some ⟨[]⟩)) hit_rate_scenario = 1 ∧
    Cache.hit_rate ⟨64, some ⟨["a"]⟩, 1, 3, []⟩ = 6004799503160661 / 2 ^ 54 ∧
    Cache.hit_rate ⟨64, some ⟨["a"]⟩, 1, 3, []⟩ ≠ (1 : ℚ) / (3 : ℚ) := by
  refine ⟨by decide, by decide, by decide, ?_, ?_⟩
  · rw [hit_rate_one_third]; norm_num
  · rw [hit_rate_one_third]; norm_num

theorem run_hits_le_gets (c0 c : Impl) (ops : List Op)
    (h0 : c0.gets = 0 ∧ c0.successful_gets = 0) (hops : Op.reset ∉ ops)
    (hc : Cache.run c0 ops = some c) : count_hits c0 ops ≤ count_gets ops := by
  obtain ⟨h1, h2⟩ := run_counters ops c0 c hops hc
  have hle := run_counters_le ops c0 c hc (by omega)
  omega

/-- C12 (amended).  Start from a newly constructed cache or from the state left by
`reset()` and run any sequence of `set`, `get` and `del` calls with `g` calls of `get`, of
which `h` return a present value.  The run completes, `gets` is `g`, `successful_gets` is
`h` (with `h <= g`), and `hit_rate()` is 0 when `g = 0` and otherwise the quotient of `h`
by `g` computed in `double` arithmetic; for `g < 2 ^ 53` it differs from the exact ratio
`h / g` by at most `(h / g) / 2 ^ 53`.  In every state, `set` and `del` leave both counters
unchanged. -/
theorem C12_hit_rate_arithmetic (c0 : Impl) (ops : List Op) (maxmem : Nat)
    (evictor : Option Fifo_Evictor)
    (hstart : c0 = Cache.new maxmem evictor ∨ ∃ c, c0 = (Cache.reset c).2)
    (hops : Op.reset ∉ ops) :
    (∃ c, Cache.run c0 ops = some c ∧
      c.gets = count_gets ops ∧ c.successful_gets = count_hits c0 ops ∧
      count_hits c0 ops ≤ count_gets ops ∧
      Cache.hit_rate c =
        (if count_gets ops = 0 then 0
          else double_div (to_double (count_hits c0 ops)) (to_double (count_gets ops))) ∧
      (count_gets ops < 2 ^ 53 →
        |Cache.hit_rate c - (count_hits c0 ops : ℚ) / (count_gets ops : ℚ)| ≤
          (count_hits c0 ops : ℚ) / (count_gets ops : ℚ) / 2 ^ 53)) ∧
    (∀ (c : Impl) (key : key_type) (val : val_type) (ok : Bool) (c1 : Impl),
      Cache.set c key val = some (ok, c1) →
        c1.gets = c.gets ∧ c1.successful_gets = c.successful_gets) ∧
    (∀ (c : Impl) (key : key_type),
      (Cache.del c key).2.gets = c.gets ∧
      (Cache.del c key).2.successful_gets = c.successful_gets) := by
  have h0 : c0.gets = 0 ∧ c0.successful_gets = 0 := by
    rcases hstart with h | ⟨c, h⟩
    · subst h; exact ⟨rfl, rfl⟩
    · subst h; exact ⟨rfl, rfl⟩
  refine ⟨?_, ?_, del_counters⟩
  · obtain ⟨c, hc⟩ := run_total ops c0
    obtain ⟨h1, h2⟩ := run_counters ops c0 c hops hc
    have hle := run_hits_le_gets c0 c ops h0 hops hc
    rw [h0.1, Nat.zero_add] at h1
    rw [h0.2, Nat.zero_add] at h2
    have hrate : Cache.hit_rate c =
        (if count_gets ops = 0 then 0
          else double_div (to_double (count_hits c0 ops)) (to_double (count_gets ops))) := by
      simp only [Cache.hit_rate, h1, h2]
    refine ⟨c, hc, h1, h2, hle, hrate, ?_⟩
    intro hsmall
    rw [hrate]
    by_cases hg : count_gets ops = 0
    · have hh : count_hits c0 ops = 0 := by omega
      simp [hg, hh]
    · simp only [hg, if_false]
      rw [to_double_small _ hsmall, to_double_small _ (by omega)]
      exact double_div_error _ _ (Nat.pos_of_ne_zero hg)
  · intro c key val ok c1 h
    exact (set_frame c key val ok c1 h).2

/-- Witness for C12 (amended): the hit-rate scenario on a new 64-byte FIFO cache, with
three `get` calls and one hit. -/
theorem C12_hit_rate_arithmetic_witness :
    (Op.reset ∉ hit_rate_scenario ∧ count_gets hit_rate_scenario = 3 ∧
      count_hits (Cache.new 64 (some ⟨[]⟩)) hit_rate_scenario = 1) ∧
    ((∃ c, Cache.run (Cache.new 64 (some ⟨[]⟩)) hit_rate_scenario = some c ∧
      c.gets = count_gets hit_rate_scenario ∧
      c.successful_gets = count_hits (Cache.new 64 (some ⟨[]⟩)) hit_rate_scenario ∧
      count_hits (Cache.new 64 (some ⟨[]⟩)) hit_rate_scenario ≤
        count_gets hit_rate_scenario ∧
      Cache.hit_rate c =
        (if count_gets hit_rate_scenario = 0 then 0
          else double_div
            (to_double (count_hits (Cache.new 64 (some ⟨[]⟩)) hit_rate_scenario))
            (to_double (count_gets hit_rate_scenario))) ∧
      (count_gets hit_rate_scenario < 2 ^ 53 →
        |Cache.hit_rate c -
            (count_hits (Cache.new 64 (some ⟨[]⟩)) hit_rate_scenario : ℚ) /
              (count_gets hit_rate_scenario : ℚ)| ≤
          (count_hits (Cache.new 64 (some ⟨[]⟩)) hit_rate_scenario : ℚ) /
            (count_gets hit_rate_scenario : ℚ) / 2 ^ 53)) ∧
    (∀ (c : Impl) (key : key_type) (val : val_type) (ok : Bool) (c1 : Impl),
      Cache.set c key val = some (ok, c1) →
        c1.gets = c.gets ∧ c1.successful_gets = c.successful_gets) ∧
    (∀ (c : Impl) (key : key_type),
      (Cache.del c key).2.gets = c.gets ∧
      (Cache.del c key).2.successful_gets = c.successful_gets)) :=
  ⟨by decide,
   C12_hit_rate_arithmetic (Cache.new 64 (some ⟨[]⟩)) hit_rate_scenario
     64 (some ⟨[]⟩) (Or.inl rfl) (by decide)⟩

/-! ## Parsing the request target -/

theorem find_last_of_absent (l : List Char) (ch : Char) (h : ch ∉ l) :
    find_last_of l ch = none := by
  induction l with
  | nil => rfl
  | cons c rest ih =>
    simp only [List.mem_cons, not_or] at h
    have hc : ¬ c = ch := fun e => h.1 e.symm
    simp [find_last_of, ih h.2, hc]

theorem find_last_of_append (a b : List Char) (ch : Char) (h : ch ∉ b) :
    find_last_of (a ++ ch :: b) ch = some a.length := by
  induction a with
  | nil => simp [find_last_of, find_last_of_absent b ch h]
  | cons c rest ih => simp [find_last_of, ih]

theorem target_two_fields_data (key value : String) :
    ("/" ++ key ++ "/" ++ value).data = ('/' :: key.data) ++ '/' :: value.data := by
  simp [String.data_append]

theorem target_one_field_data (key : String) : ("/" ++ key).data = '/' :: key.data := by
  simp [String.data_append]

theorem drop_append_cons (a b : List Char) (c : Char) :
    (a ++ c :: b).drop (a.length + 1) = b := by
  induction a with
  | nil => simp
  | cons x rest ih => simp

theorem substr_first_field (k v : List Char) :
    substr (('/' :: k) ++ '/' :: v) 1 k.length = some k := by
  simp [substr]

theorem substr_second_field (k v : List Char) (n : Nat) (h : v.length ≤ n) :
    substr (('/' :: k) ++ '/' :: v) (k.length + 1 + 1) n = some v := by
  have hd : (('/' :: k) ++ '/' :: v).drop (k.length + 1 + 1) = v := by
    have := drop_append_cons ('/' :: k) v '/'
    simp
  have hlen : ¬ (k.length + 1 + 1 > (('/' :: k) ++ '/' :: v).length) := by
    simp
  simp only [substr, hlen, if_false, hd, List.take_of_length_le h]

theorem substr_only_field (k : List Char) (n : Nat) (h : k.length ≤ n) :
    substr ('/' :: k) 1 n = some k := by
  simp [substr, List.take_of_length_le h]

/-- C20 (request-target parsing).  For strings `key` and `value` without `/`, both parsers
return (no exception), `get_field1` of `"/" + key + "/" + value` is `key` and `get_field2`
of it is `value`; for the target `"/" + key` with a single slash `get_field1` is `key` and
`get_field2` is the placeholder `" "`. -/
theorem C20_target_parsing (key value : String)
    (hk : '/' ∉ key.data) (hv : '/' ∉ value.data) :
    get_field1 ("/" ++ key ++ "/" ++ value) = some key ∧
    get_field2 ("/" ++ key ++ "/" ++ value) = some value ∧
    get_field1 ("/" ++ key) = some key ∧
    get_field2 ("/" ++ key) = some " " := by
  have hlast2 : find_last_of (('/' :: key.data) ++ '/' :: value.data) '/' =
      some (key.data.length + 1) := by
    have := find_last_of_append ('/' :: key.data) value.data '/' hv
    simpa using this
  have hlast1 : find_last_of ('/' :: key.data) '/' = some 0 := by
    simp [find_last_of, find_last_of_absent key.data '/' hk]
  refine ⟨?_, ?_, ?_, ?_⟩
  · unfold get_field1
    rw [target_two_fields_data, hlast2]
    have hne : ¬ (some (key.data.length + 1) = some 0) := by simp
    simp only [find_first_of, if_true, pos_succ, hne, if_false, Nat.add_sub_cancel]
    rw [substr_first_field key.data value.data]
    rfl
  · unfold get_field2
    rw [target_two_fields_data, hlast2]
    have hne : ¬ (some (key.data.length + 1) = some 0) := by simp
    simp only [List.cons_append, find_first_of, if_true, pos_succ, hne, if_false]
    have := substr_second_field key.data value.data
      ('/' :: (key.data ++ '/' :: value.data)).length (by simp; omega)
    simp only [List.cons_append] at this
    rw [this]
    rfl
  · unfold get_field1
    rw [target_one_field_data, hlast1]
    simp only [find_first_of, if_true, pos_succ]
    rw [substr_only_field key.data ('/' :: key.data).length (by simp)]
    rfl
  · unfold get_field2
    rw [target_one_field_data, hlast1]
    simp [find_first_of]

/-- Witness for C20: the key `"key"` and the value `"value"`. -/
theorem C20_target_parsing_witness :
    ('/' ∉ ("key" : String).data ∧ '/' ∉ ("value" : String).data) ∧
    get_field1 ("/" ++ "key" ++ "/" ++ "value") = some "key" ∧
    get_field2 ("/" ++ "key" ++ "/" ++ "value") = some "value" ∧
    get_field1 ("/" ++ "key") = some "key" ∧
    get_field2 ("/" ++ "key") = some " " :=
  ⟨by decide, C20_target_parsing "key" "value" (by decide) (by decide)⟩

/-! ## Stored keys are candidates; a failed `set` drains the cache -/

/-- C21 (every stored key is an eviction candidate).  From a cache with a new FIFO policy,
every sequence of `set`, `get`, `del` and `reset` calls in which `set` is never given the
empty key runs to completion, and in the state it reaches every key of the table occurs in
the policy's queue (and the queue does not hold `""`). -/
theorem C21_stored_keys_are_candidates (maxmem : Nat) (ops : List Op)
    (hops : ∀ op ∈ ops, op.set_key_nonempty) :
    ∃ (c : Impl) (q : List key_type),
      Cache.run (Cache.new maxmem (some ⟨[]⟩)) ops = some c ∧
      c.evictor = some ⟨q⟩ ∧ "" ∉ q ∧
      (∀ k, unordered_map.find c.table k ≠ none → k ∈ q) ∧
      (∀ k ∈ tkeys c.table, k ∈ q) := by
  obtain ⟨c, hc⟩ := run_total ops (Cache.new maxmem (some ⟨[]⟩))
  obtain ⟨⟨q, h1, h2, _, h4⟩, _⟩ := run_fifo_inv ops _ c (new_fifo_inv maxmem) hops hc
  refine ⟨c, q, hc, h1, h2, ?_, h4⟩
  intro k hk
  apply h4
  by_contra hn
  exact hk ((find_eq_none_iff _ _).2 hn)

/-- Witness for C21: after `set("a")`, `set("b")`, `del("a")`, `set("b")` the queue is
`a, b, b` (a stale and a duplicate entry) and the table holds `"b"`. -/
theorem C21_stored_keys_are_candidates_witness :
    Cache.run (Cache.new 64 (some ⟨[]⟩))
        [Op.set "a" (bytes 8 1), Op.set "b" (bytes 8 2), Op.del "a", Op.set "b" (bytes 8 3)] =
      some ⟨64, some ⟨["a", "b", "b"]⟩, 0, 0, [("b", bytes 8 3)]⟩ ∧
    ∃ (c : Impl) (q : List key_type),
      Cache.run (Cache.new 64 (some ⟨[]⟩))
        [Op.set "a" (bytes 8 1), Op.set "b" (bytes 8 2), Op.del "a", Op.set "b" (bytes 8 3)] =
        some c ∧
      c.evictor = some ⟨q⟩ ∧ "" ∉ q ∧
      (∀ k, unordered_map.find c.table k ≠ none → k ∈ q) ∧
      (∀ k ∈ tkeys c.table, k ∈ q) :=
  ⟨by decide,
   C21_stored_keys_are_candidates 64
     [Op.set "a" (bytes 8 1), Op.set "b" (bytes 8 2), Op.del "a", Op.set "b" (bytes 8 3)]
     (by
       intro op hop
       simp only [List.mem_cons, List.mem_singleton] at hop
       rcases hop with h | h | h | h | h
       all_goals first
         | (subst h; simp [Op.set_key_nonempty])
         | simp at h)⟩

theorem evict_empty_of_result_empty (ev : Fifo_Evictor) (hq : "" ∉ ev.keys)
    (h : ev.evict.1 = "") : ev.evict.2.keys = [] := by
  unfold Fifo_Evictor.evict at h ⊢
  cases hk : ev.keys with
  | nil => simp [hk]
  | cons k rest =>
    simp only [hk] at h
    rw [hk] at hq
    exact absurd (by simp [h]) hq

theorem set_inner_none_drains (table : Table) (fuel : Nat) :
    ∀ (ev ev2 : Fifo_Evictor) (k : key_type), "" ∉ ev.keys →
      Cache.set_inner fuel table ev k = some (none, ev2) → ev2.keys = [] := by
  induction fuel with
  | zero => intro ev ev2 k _ h; simp [Cache.set_inner] at h
  | succ n ih =>
    intro ev ev2 k hq h
    unfold Cache.set_inner at h
    cases hf : unordered_map.find table k with
    | some v => simp [hf] at h
    | none =>
      simp only [hf] at h
      by_cases he : ev.evict.1 = ""
      · simp only [he, if_true, Option.some.injEq, Prod.mk.injEq, true_and] at h
        rw [← h]
        exact evict_empty_of_result_empty ev hq he
      · simp only [he, if_false] at h
        exact ih _ _ _ (not_mem_of_suffix _ _ (evict_keys_suffix ev) hq) h

theorem set_outer_false_drains (fuel : Nat) :
    ∀ (c : Impl) (ev : Fifo_Evictor) (m : Nat) (ev2 : Fifo_Evictor) (c2 : Impl),
      "" ∉ ev.keys → Cache.set_outer fuel c ev m = some (false, ev2, c2) → ev2.keys = [] := by
  induction fuel with
  | zero => intro c ev m ev2 c2 _ h; simp [Cache.set_outer] at h
  | succ n ih =>
    intro c ev m ev2 c2 hq h
    unfold Cache.set_outer at h
    by_cases hgt : m > c.maxmem
    · simp only [hgt, if_true] at h
      by_cases he : ev.evict.1 = ""
      · simp only [he, if_true, Option.some.injEq, Prod.mk.injEq, true_and] at h
        rw [← h.1]
        exact evict_empty_of_result_empty ev hq he
      · simp only [he, if_false] at h
        have hq1 := not_mem_of_suffix _ _ (evict_keys_suffix ev) hq
        cases hr : Cache.set_inner n c.table ev.evict.2 ev.evict.1 with
        | none => simp [hr] at h
        | some r =>
          obtain ⟨r1, ev3⟩ := r
          cases r1 with
          | none =>
            simp only [hr, Option.some.injEq, Prod.mk.injEq, true_and] at h
            rw [← h.1]
            exact set_inner_none_drains _ _ _ _ _ hq1 hr
          | some k2 =>
            simp only [hr] at h
            obtain ⟨v, hv⟩ := set_inner_found _ _ _ _ _ _ hr
            simp only [hv] at h
            exact ih _ _ _ _ _
              (not_mem_of_suffix _ _ (set_inner_suffix _ _ _ _ _ _ hr) hq1) h
    · simp [hgt] at h

/-- C22 (a failed `set` drains the cache).  Take a state reached from a cache with a new
FIFO policy by calls in which `set` is never given the empty key.  Whenever `set` of a
non-empty key returns false in that state, the table is empty and the policy's queue is
empty afterwards. -/
theorem C22_failed_set_drains (maxmem : Nat) (ops : List Op) (c c1 : Impl)
    (key : key_type) (val : val_type)
    (hops : ∀ op ∈ ops, op.set_key_nonempty) (hkey : key ≠ "")
    (hrun : Cache.run (Cache.new maxmem (some ⟨[]⟩)) ops = some c)
    (hset : Cache.set c key val = some (false, c1)) :
    c1.table = [] ∧ c1.evictor = some ⟨[]⟩ := by
  obtain ⟨hinv, _⟩ := run_fifo_inv ops _ c (new_fifo_inv maxmem) hops hrun
  obtain ⟨⟨q1, hq1, _, _, hsub1⟩, _⟩ := set_fifo_inv c key val false c1 hinv hkey hset
  obtain ⟨q, hev, hq, _, _⟩ := hinv
  obtain ⟨c2, he, hf, _⟩ := set_cases c key val false c1 hset
  obtain ⟨ev2, c3, ho, hc2⟩ := set_evict_with_policy c key val false c2 q hev he
  have hq2 : "" ∉ (⟨q ++ [key]⟩ : Fifo_Evictor).keys := by
    intro hm
    simp only [List.mem_append, List.mem_singleton] at hm
    rcases hm with hm | hm
    · exact hq hm
    · exact hkey hm.symm
  have hempty := set_outer_false_drains _ c ⟨q ++ [key]⟩ _ ev2 c3 hq2 ho
  have hc1 : c1.evictor = some ev2 := by rw [hf rfl, hc2]
  have hev2 : ev2 = ⟨[]⟩ := by
    cases ev2 with
    | mk ks => simp only at hempty; rw [hempty]
  rw [hev2] at hc1
  refine ⟨?_, hc1⟩
  rw [hq1] at hc1
  simp only [Option.some.injEq, Fifo_Evictor.mk.injEq] at hc1
  rw [hc1] at hsub1
  cases ht : c1.table with
  | nil => rfl
  | cons e rest =>
    rw [ht] at hsub1
    exact absurd (hsub1 e.1 (by simp [tkeys])) (by simp)

/-- Witness for C22: a 64-byte FIFO cache that holds 32 bytes under `"a"`; a `set` of
100 bytes under `"b"` returns false and leaves an empty table and an empty queue. -/
theorem C22_failed_set_drains_witness :
    ((("b" : key_type) ≠ "") ∧
      Cache.run (Cache.new 64 (some ⟨[]⟩)) [Op.set "a" (bytes 32 1)] =
        some ⟨64, some ⟨["a"]⟩, 0, 0, [("a", bytes 32 1)]⟩ ∧
      Cache.set ⟨64, some ⟨["a"]⟩, 0, 0, [("a", bytes 32 1)]⟩ "b" (bytes 100 2) =
        some (false, ⟨64, some ⟨[]⟩, 0, 0, []⟩)) ∧
    ((⟨64, some ⟨[]⟩, 0, 0, []⟩ : Impl).table = [] ∧
      (⟨64, some ⟨[]⟩, 0, 0, []⟩ : Impl).evictor = some ⟨[]⟩) :=
  ⟨by decide,
   C22_failed_set_drains 64 [Op.set "a" (bytes 32 1)]
     ⟨64, some ⟨["a"]⟩, 0, 0, [("a", bytes 32 1)]⟩ ⟨64, some ⟨[]⟩, 0, 0, []⟩
     "b" (bytes 100 2)
     (by
       intro op hop
       simp only [List.mem_singleton] at hop
       subst hop
       simp [Op.set_key_nonempty])
     (by decide) (by decide) (by decide)⟩

/-! ## Termination of `set` and the number of `evict()` calls -/

theorem set_inner_calls_eq (table : Table) (fuel : Nat) :
    ∀ (ev : Fifo_Evictor) (k : key_type),
      (Cache.set_inner_calls fuel table ev k).map (fun r => (r.1, r.2.1)) =
        Cache.set_inner fuel table ev k := by
  induction fuel with
  | zero => intro ev k; rfl
  | succ n ih =>
    intro ev k
    unfold Cache.set_inner_calls Cache.set_inner
    cases hf : unordered_map.find table k with
    | some v => rfl
    | none =>
      by_cases he : ev.evict.1 = ""
      · simp [he]
      · simp only [he, if_false]
        rw [← ih ev.evict.2 ev.evict.1]
        cases Cache.set_inner_calls n table ev.evict.2 ev.evict.1 with
        | none => rfl
        | some r => rfl

theorem set_outer_calls_eq (fuel : Nat) :
    ∀ (c : Impl) (ev : Fifo_Evictor) (m : Nat),
      (Cache.set_outer_calls fuel c ev m).map (fun r => (r.1, r.2.1, r.2.2.1)) =
        Cache.set_outer fuel c ev m := by
  induction fuel with
  | zero => intro c ev m; rfl
  | succ n ih =>
    intro c ev m
    unfold Cache.set_outer_calls Cache.set_outer
    by_cases hgt : m > c.maxmem
    · simp only [hgt, if_true]
      by_cases he : ev.evict.1 = ""
      · simp [he]
      · simp only [he, if_false]
        rw [← set_inner_calls_eq c.table n ev.evict.2 ev.evict.1]
        cases Cache.set_inner_calls n c.table ev.evict.2 ev.evict.1 with
        | none => rfl
        | some r =>
          obtain ⟨r1, ev2, cnt⟩ := r
          cases r1 with
          | none => rfl
          | some k2 =>
            simp only [Option.map_some']
            cases hf : unordered_map.find c.table k2 with
            | none => rfl
            | some v =>
              simp only []
              rw [← ih (Cache.del c k2).2 ev2 (m - v.size_)]
              cases Cache.set_outer_calls n (Cache.del c k2).2 ev2 (m - v.size_) with
              | none => rfl
              | some r2 => rfl
    · simp [hgt]

theorem set_inner_calls_bound (table : Table) (fuel : Nat) :
    ∀ (ev ev2 : Fifo_Evictor) (k : key_type) (r : Option key_type) (cnt : Nat),
      Cache.set_inner_calls fuel table ev k = some (r, ev2, cnt) →
        cnt + ev2.keys.length ≤ ev.keys.length + 1 ∧
        (r ≠ none → cnt + ev2.keys.length ≤ ev.keys.length) := by
  induction fuel with
  | zero => intro ev ev2 k r cnt h; simp [Cache.set_inner_calls] at h
  | succ n ih =>
    intro ev ev2 k r cnt h
    unfold Cache.set_inner_calls at h
    cases hf : unordered_map.find table k with
    | some v =>
      simp only [hf, Option.some.injEq, Prod.mk.injEq] at h
      obtain ⟨_, h2, h3⟩ := h
      subst h2 h3
      exact ⟨by omega, fun _ => by omega⟩
    | none =>
      simp only [hf] at h
      by_cases he : ev.evict.1 = ""
      · simp only [he, if_true, Option.some.injEq, Prod.mk.injEq] at h
        obtain ⟨h1, h2, h3⟩ := h
        subst h1 h2 h3
        have := (evict_keys_suffix ev).length_le
        exact ⟨by omega, fun hr => absurd rfl hr⟩
      · simp only [he, if_false] at h
        have hl := evict_keys_length ev he
        cases hr : Cache.set_inner_calls n table ev.evict.2 ev.evict.1 with
        | none => simp [hr] at h
        | some r2 =>
          obtain ⟨k2, ev3, cnt2⟩ := r2
          simp only [hr, Option.some.injEq, Prod.mk.injEq] at h
          obtain ⟨h1, h2, h3⟩ := h
          subst h1 h2 h3
          obtain ⟨g1, g2⟩ := ih _ _ _ _ _ hr
          exact ⟨by omega, fun hne => by have := g2 hne; omega⟩

theorem set_outer_calls_bound (fuel : Nat) :
    ∀ (c : Impl) (ev : Fifo_Evictor) (m : Nat) (ok : Bool) (ev2 : Fifo_Evictor) (c2 : Impl)
      (cnt : Nat),
      Cache.set_outer_calls fuel c ev m = some (ok, ev2, c2, cnt) →
        cnt + ev2.keys.length ≤ ev.keys.length + 1 ∧
        (ok = true → cnt + ev2.keys.length ≤ ev.keys.length) := by
  induction fuel with
  | zero => intro c ev m ok ev2 c2 cnt h; simp [Cache.set_outer_calls] at h
  | succ n ih =>
    intro c ev m ok ev2 c2 cnt h
    unfold Cache.set_outer_calls at h
    by_cases hgt : m > c.maxmem
    · simp only [hgt, if_true] at h
      by_cases he : ev.evict.1 = ""
      · simp only [he, if_true, Option.some.injEq, Prod.mk.injEq] at h
        obtain ⟨h1, h2, _, h4⟩ := h
        subst h1 h2 h4
        have := (evict_keys_suffix ev).length_le
        exact ⟨by omega, fun hr => by simp at hr⟩
      · simp only [he, if_false] at h
        have hl := evict_keys_length ev he
        cases hr : Cache.set_inner_calls n c.table ev.evict.2 ev.evict.1 with
        | none => simp [hr] at h
        | some r =>
          obtain ⟨r1, ev3, cnt1⟩ := r
          obtain ⟨g1, g2⟩ := set_inner_calls_bound _ _ _ _ _ _ _ hr
          cases r1 with
          | none =>
            simp only [hr, Option.some.injEq, Prod.mk.injEq] at h
            obtain ⟨h1, h2, _, h4⟩ := h
            subst h1 h2 h4
            exact ⟨by omega, fun hr => by simp at hr⟩
          | some k2 =>
            simp only [hr] at h
            have g3 := g2 (by simp)
            cases hf : unordered_map.find c.table k2 with
            | none =>
              simp only [hf, Option.some.injEq, Prod.mk.injEq] at h
              obtain ⟨h1, h2, _, h4⟩ := h
              subst h1 h2 h4
              exact ⟨by omega, fun hr => by simp at hr⟩
            | some v =>
              simp only [hf] at h
              cases hr2 : Cache.set_outer_calls n (Cache.del c k2).2 ev3 (m - v.size_) with
              | none => simp [hr2] at h
              | some r2 =>
                obtain ⟨ok2, ev4, c4, cnt2⟩ := r2
                simp only [hr2, Option.some.injEq, Prod.mk.injEq] at h
                obtain ⟨h1, h2, _, h4⟩ := h
                subst h1 h2 h4
                obtain ⟨f1, f2⟩ := ih _ _ _ _ _ _ _ hr2
                exact ⟨by omega, fun hok => by have := f2 hok; omega⟩
    · simp only [hgt, if_false, Option.some.injEq, Prod.mk.injEq] at h
      obtain ⟨h1, h2, _, h4⟩ := h
      subst h1 h2 h4
      exact ⟨by omega, fun _ => by omega⟩

/-- An example in which the bound of C23 is reached: on a 64-byte FIFO cache that holds 32
bytes under `"a"`, `set("b", 100 bytes)` runs on the queue `a, b` and calls `evict()` three
times (it pops `a`, pops the stale `b`, and finds the queue empty). -/
theorem set_evict_calls_example :
    Cache.set_evict_calls ⟨64, some ⟨["a"]⟩, 0, 0, [("a", bytes 32 1)]⟩ "b" (bytes 100 2) =
      some 3 := by
  decide

/-- C23 (`set` always terminates).  For every state, key and value, `set` returns.  The
loops with a count of the `evict()` calls compute the same results as the loops of `set`,
and the number of `evict()` calls made by `set` is at most the length of the policy's queue
after the touch plus one (at most that length when `set` gets past the loops).  With no
policy `set` makes no `evict()` call and its loop body runs at most once: the result of the
eviction phase is decided by the single test `memused > maxmem`. -/
theorem C23_set_terminates (c : Impl) (key : key_type) (val : val_type) :
    (∃ ok c1 n, Cache.set c key val = some (ok, c1) ∧
      Cache.set_evict_calls c key val = some n ∧
      n ≤ (match c.evictor with
            | some ev => (ev.touch_key key).keys.length + 1
            | none => 0) ∧
      (ok = true → n ≤ (match c.evictor with
            | some ev => (ev.touch_key key).keys.length
            | none => 0))) ∧
    (∀ (fuel : Nat) (c2 : Impl) (ev : Fifo_Evictor) (m : Nat),
      (Cache.set_outer_calls fuel c2 ev m).map (fun r => (r.1, r.2.1, r.2.2.1)) =
        Cache.set_outer fuel c2 ev m) ∧
    (c.evictor = none →
      Cache.set_evict_calls c key val = some 0 ∧
      Cache.set_evict c key val =
        some (decide (¬ Cache.space_used c + val.size_ > c.maxmem), c)) := by
  refine ⟨?_, fun fuel c2 ev m => set_outer_calls_eq fuel c2 ev m, ?_⟩
  · obtain ⟨⟨ok, c1⟩, hs⟩ := set_total c key val
    obtain ⟨c2, he, _, _⟩ := set_cases c key val ok c1 hs
    cases hev : c.evictor with
    | none =>
      exact ⟨ok, c1, 0, hs, by simp [Cache.set_evict_calls, hev], by simp, by simp⟩
    | some ev0 =>
      have heq := set_outer_calls_eq ((ev0.touch_key key).keys.length + 1) c
        (ev0.touch_key key) (Cache.space_used c + val.size_)
      unfold Cache.set_evict at he
      simp only [hev] at he
      cases hr : Cache.set_outer_calls ((ev0.touch_key key).keys.length + 1) c
          (ev0.touch_key key) (Cache.space_used c + val.size_) with
      | none =>
        rw [hr] at heq
        simp only [Option.map_none'] at heq
        rw [← heq] at he
        simp at he
      | some r =>
        obtain ⟨ok2, ev2, c3, cnt⟩ := r
        rw [hr] at heq
        simp only [Option.map_some'] at heq
        rw [← heq] at he
        simp only [Option.some.injEq, Prod.mk.injEq] at he
        obtain ⟨hok, _⟩ := he
        subst hok
        obtain ⟨b1, b2⟩ := set_outer_calls_bound _ _ _ _ _ _ _ _ hr
        refine ⟨ok2, c1, cnt, hs, ?_, ?_, ?_⟩
        · simp [Cache.set_evict_calls, hev, hr]
        · simp only []; omega
        · intro hok; have := b2 hok; simp only []; omega
  · intro hev
    refine ⟨by simp [Cache.set_evict_calls, hev], ?_⟩
    unfold Cache.set_evict
    simp only [hev]
    by_cases hgt : Cache.space_used c + val.size_ > c.maxmem
    · simp [hgt]
    · simp [hgt]

end CacheStore
